import Mathlib

/-!
# Verification of the edi_energy_scraper core logic

A shallow embedding, in Lean 4, of the document-identity, naming and
synchronization logic of the `edi_energy_scraper` python package:

* `apidocument.py` — the `Document` model and its derived properties,
  in particular `Document.get_meaningful_file_name` (the filename encoder);
* `documentmetadata.py` — `DocumentMetadata.from_filename` (the decoder);
* `utilities.py` — `_get_valid_format_versions` and `_have_different_metadata`;
* `scraper.py` — `EdiEnergyScraper._remove_old_files`, the replace decision of
  `download_document_per_fv`, and the phase structure of `mirror`;
* `__init__.py` — the legacy helpers `_get_file_path` and
  `get_edifact_format_version_range_from_filename`.

Modelling conventions:

* Python strings are `List Char`; `str.split` is `List.splitOn`,
  `str.join` is `List.intercalate`, `s.lower()` is mapped `Char.toLower`
  (the ASCII lowering; the full-Unicode lowering of python differs only on
  code points that the subsequent `[A-Za-z]`/keyword checks discard anyway).
* `datetime.date` is a `year`/`month`/`day` record ordered lexicographically;
  `strftime("%Y%m%d")` / `strptime(_, "%Y%m%d")` are modelled explicitly.
* Exceptions are `Option`/`Except`: a raising call site returns `none`/`.error`.
* The `re`-based title extractions of `apidocument.py` (`file_kind`,
  `edifact_format`, `document_version`, the `Stand:` date) enter the model as
  fields of the `Document` record, constrained by `ValidDocument` to exactly
  the shapes their regular expressions can produce.  The keyword (substring)
  checks and `alternative_file_kind` are modelled directly.
* The `efoli` library (`EdifactFormatVersion`, `get_edifact_format_version`)
  is an external dependency; it is modelled from the spec's
  `FormatVersionCalendar` contract (ordered finite buckets with fixed
  half-year boundaries, start dates 1 Apr / 1 Oct, total `version_for`).
-/

namespace EdiEnergy

/-! ## Decimal rendering and parsing of natural numbers (`str(n)` / `int(s)`) -/

/-- Fuel-driven base-10 rendering; `fuel > n` makes it total and lets the
kernel evaluate it (no well-founded recursion). -/
def natToCharsAux : Nat → Nat → List Char
  | 0, _ => []
  | fuel + 1, n => if n < 10 then [Nat.digitChar n] else natToCharsAux fuel (n / 10) ++ [Nat.digitChar (n % 10)]

/-- Decimal rendering of a natural number, python's `str(n)` for `n : Nat`. -/
def natToChars (n : Nat) : List Char := natToCharsAux (n + 1) n

/-- Value of a decimal digit character. -/
def charVal (c : Char) : Nat := c.toNat - 48

/-- Decimal reading of a digit string (the numeric core of python's `int(s)`). -/
def charsToNat (cs : List Char) : Nat := cs.foldl (fun a c => a * 10 + charVal c) 0

/-- Python's `int(s)` on a string: succeeds on (non-empty) all-digit input.
(The python function also accepts signs and surrounding whitespace; the
scraper only ever feeds it digit strings.) -/
def parseNat (cs : List Char) : Option Nat :=
  if cs ≠ [] ∧ cs.all Char.isDigit then some (charsToNat cs) else none

/-! ## Calendar dates (`datetime.date`) and `%Y%m%d` formatting -/

/-- A calendar date, as in python's `datetime.date`. -/
structure Date where
  year : Nat
  month : Nat
  day : Nat
deriving DecidableEq, Repr

/-- Python's `date` comparison: lexicographic on `(year, month, day)`. -/
def dateLe (a b : Date) : Bool :=
  a.year < b.year ∨ (a.year = b.year ∧
    (a.month < b.month ∨ (a.month = b.month ∧ a.day ≤ b.day)))

/-- Gregorian leap-year rule, as in python's calendar. -/
def isLeapYear (y : Nat) : Bool := y % 4 = 0 ∧ (y % 100 ≠ 0 ∨ y % 400 = 0)

/-- Number of days of the given month. -/
def daysInMonth (y m : Nat) : Nat :=
  if m = 2 then (if isLeapYear y then 29 else 28)
  else if m = 4 ∨ m = 6 ∨ m = 9 ∨ m = 11 then 30
  else 31

/-- The dates representable as `datetime.date` values whose `%Y%m%d` rendering
is eight digits: real month/day and a four-digit year.  (`datetime.date`
itself requires `1 ≤ year ≤ 9999`; every date the scraper handles — API dates,
the `9999-12-31` sentinel, `Stand:` dates — has a four-digit year.) -/
def validDate (d : Date) : Bool :=
  1000 ≤ d.year ∧ d.year ≤ 9999 ∧ 1 ≤ d.month ∧ d.month ≤ 12 ∧
    1 ≤ d.day ∧ d.day ≤ daysInMonth d.year d.month

/-- Two-digit zero-padded rendering (`%m` / `%d`). -/
def pad2 (n : Nat) : List Char := if n < 10 then '0' :: natToChars n else natToChars n

/-- Python's `d.strftime("%Y%m%d")`. -/
def strftimeYmd (d : Date) : List Char := natToChars d.year ++ pad2 d.month ++ pad2 d.day

/-- Python's `datetime.strptime(s, "%Y%m%d")` (restricted to the eight-digit
strings the scraper produces), including the day-of-month range check that
makes `strptime` raise on impossible dates. -/
def strptimeYmd (cs : List Char) : Option Date :=
  if cs.length = 8 ∧ cs.all Char.isDigit then
    let y := charsToNat (cs.take 4)
    let m := charsToNat ((cs.drop 4).take 2)
    let d := charsToNat (cs.drop 6)
    if 1 ≤ m ∧ m ≤ 12 ∧ 1 ≤ d ∧ d ≤ daysInMonth y m then some ⟨y, m, d⟩ else none
  else none

/-! ## Python string operations: `split`, `join`, `Path.stem`, `in`, `strip` -/

/-- Python's `l[-k]` on lists (raising `IndexError`, i.e. `none`, out of range). -/
def negIdx {α : Type} (l : List α) (k : Nat) : Option α :=
  if 1 ≤ k ∧ k ≤ l.length then l.get? (l.length - k) else none

/-- Python's `".".join(fname.split(".")[:-1])` (used by `from_filename` to cut
off the extension). -/
def dropExtPy (fname : List Char) : List Char :=
  List.intercalate ['.'] ((fname.splitOn '.').dropLast)

/-- `pathlib.Path(name).stem`: the name without its final suffix (a dotless
name is returned unchanged). -/
def stemPy (name : List Char) : List Char :=
  if (name.splitOn '.').length ≤ 1 then name else dropExtPy name

/-- Python's substring test `needle in haystack`. -/
def containsSub (needle : List Char) : List Char → Bool
  | [] => needle.isEmpty
  | c :: rest => needle.isPrefixOf (c :: rest) || containsSub needle rest

/-- Python's `str.lower()` restricted to ASCII (`Char.toLower`); the scraper's
keyword checks and `[A-Za-z]` filter are insensitive to the difference on
non-ASCII code points. -/
def lowerStr (s : List Char) : List Char := s.map Char.toLower

/-- The whitespace stripped by python's `str.strip()`. -/
def isPySpace (c : Char) : Bool :=
  c = ' ' ∨ c = '\t' ∨ c = '\n' ∨ c = '\r' ∨ c = '\x0b' ∨ c = '\x0c'

/-- Python's `str.strip()`. -/
def pyStrip (l : List Char) : List Char :=
  ((l.dropWhile isPySpace).reverse.dropWhile isPySpace).reverse

/-! ## The format-version calendar

Modelled from the spec: the `efoli` dependency provides a finite, totally
ordered enumeration `EdifactFormatVersion` of half-year buckets and a total,
monotone `get_edifact_format_version : date → bucket` whose fixed boundaries
are the bucket start dates, 1 April and 1 October (§4.1; the concrete
scenario of §8 places `2023-10-01` in `FV2310` and `2024-09-30` in `FV2404`).
The enumeration, like the real library's, extends beyond the bucket that is
"next" relative to any current date within its range. -/

/-- The format-version buckets (`efoli.EdifactFormatVersion`), named by the
year and month their validity starts. -/
inductive EdifactFormatVersion where
  | FV2104 | FV2110 | FV2204 | FV2210 | FV2304 | FV2310 | FV2404 | FV2410 | FV2504 | FV2510
deriving DecidableEq, Repr

namespace EdifactFormatVersion

/-- Position of a bucket in the enumeration. -/
def toIdx : EdifactFormatVersion → Nat
  | FV2104 => 0 | FV2110 => 1 | FV2204 => 2 | FV2210 => 3 | FV2304 => 4
  | FV2310 => 5 | FV2404 => 6 | FV2410 => 7 | FV2504 => 8 | FV2510 => 9

/-- Bucket at a given position (clamped to the last bucket). -/
def ofIdx : Nat → EdifactFormatVersion
  | 0 => FV2104 | 1 => FV2110 | 2 => FV2204 | 3 => FV2210 | 4 => FV2304
  | 5 => FV2310 | 6 => FV2404 | 7 => FV2410 | 8 => FV2504 | _ => FV2510

instance : LE EdifactFormatVersion := ⟨fun a b => toIdx a ≤ toIdx b⟩
instance : LT EdifactFormatVersion := ⟨fun a b => toIdx a < toIdx b⟩

instance (a b : EdifactFormatVersion) : Decidable (a ≤ b) :=
  inferInstanceAs (Decidable (toIdx a ≤ toIdx b))
instance (a b : EdifactFormatVersion) : Decidable (a < b) :=
  inferInstanceAs (Decidable (toIdx a < toIdx b))

end EdifactFormatVersion

open EdifactFormatVersion in
/-- The full enumeration, in ascending order (python's
`[efv for efv in EdifactFormatVersion]`). -/
def versionsList : List EdifactFormatVersion :=
  [FV2104, FV2110, FV2204, FV2210, FV2304, FV2310, FV2404, FV2410, FV2504, FV2510]

/-- Modelled from the spec: the bucket boundaries are the fixed start dates of
all buckets after the first. -/
def boundaries : List Date :=
  [⟨2021, 10, 1⟩, ⟨2022, 4, 1⟩, ⟨2022, 10, 1⟩, ⟨2023, 4, 1⟩, ⟨2023, 10, 1⟩,
   ⟨2024, 4, 1⟩, ⟨2024, 10, 1⟩, ⟨2025, 4, 1⟩, ⟨2025, 10, 1⟩]

/-- Modelled from the spec: `efoli.get_edifact_format_version`
(`FormatVersionCalendar.version_for`): the bucket whose period contains the
given date — the number of bucket boundaries not after the date selects the
bucket. Total and monotone; dates before the first boundary fall into the
first bucket. -/
def get_edifact_format_version (d : Date) : EdifactFormatVersion :=
  EdifactFormatVersion.ofIdx (boundaries.countP (fun b => dateLe b d))

/-- Modelled from the spec: python's `max(EdifactFormatVersion)` — the last
defined bucket (`maximum_version()`, the clamp target for open-ended
validity). -/
def maximumFormatVersion : EdifactFormatVersion := EdifactFormatVersion.FV2510

/-- `get_current_format_version` of `__init__.py`, with "now" passed
explicitly as a date. -/
def get_current_format_version (today : Date) : EdifactFormatVersion :=
  get_edifact_format_version today

/-- `get_next_format_version` of `__init__.py` (with "now" explicit):
`format_versions[format_versions.index(current) + 1]` — `none` models the
`IndexError` raised when the current version is the last defined one. -/
def get_next_format_version (today : Date) : Option EdifactFormatVersion :=
  versionsList.get? (EdifactFormatVersion.toIdx (get_current_format_version today) + 1)

/-- `_get_valid_format_versions` of `utilities.py`: the ordered buckets a
document with the given validity interval is filed under. -/
def _get_valid_format_versions (valid_from : Date) (valid_to : Option Date) :
    List EdifactFormatVersion :=
  let valid_from_fv := get_edifact_format_version valid_from
  let valid_to_fv :=
    match valid_to with
    | none => maximumFormatVersion
    | some vt =>
      if dateLe vt valid_from then get_edifact_format_version valid_from
      else get_edifact_format_version vt
  versionsList.filter (fun fv => decide (valid_from_fv ≤ fv) && decide (fv ≤ valid_to_fv))

/-! ## The legacy (edi-energy.de era) filename-based resolver of `__init__.py` -/

/-- Python's slice `l[a:b]` (for non-negative bounds). -/
def pySlice {α : Type} (l : List α) (a b : Nat) : List α := (l.drop a).take (b - a)

/-- `get_publication_date_from_filename`: the last `_`-separated part of the
stem, parsed as `%Y%m%d`. -/
def get_publication_date_from_filename (p : List Char) : Option Date :=
  (negIdx ((stemPy p).splitOn '_') 1).bind strptimeYmd

/-- `get_valid_to_date_from_filename`: the second-to-last `_`-separated part
of the stem; the literal `99991231` denotes open-ended validity. -/
def get_valid_to_date_from_filename (p : List Char) : Option Date :=
  (negIdx ((stemPy p).splitOn '_') 2).bind fun s =>
    if s = "99991231".toList then some ⟨9999, 12, 31⟩ else strptimeYmd s

/-- `get_edifact_format_version_range_from_filename` of `__init__.py` (with
"now" passed explicitly): buckets from the bucket of the publication date to
the bucket of the valid-to date, the end clamped to the "next" format
version. -/
def get_edifact_format_version_range_from_filename (p : List Char) (today : Date) :
    Option (List EdifactFormatVersion) := do
  let publication_date ← get_publication_date_from_filename p
  let valid_to_date ← get_valid_to_date_from_filename p
  let next_format_version ← get_next_format_version today
  let format_version_start := get_edifact_format_version publication_date
  let format_version_end0 := get_edifact_format_version valid_to_date
  let format_version_end :=
    if next_format_version < format_version_end0 then next_format_version
    else format_version_end0
  some (pySlice versionsList (EdifactFormatVersion.toIdx format_version_start)
    (EdifactFormatVersion.toIdx format_version_end + 1))

/-! ## The document model (`apidocument.py`) -/

/-- `_FileKind`: the closed set of recognised document kinds. -/
inductive FileKind where
  | MIG | AHB | EBD | XSD | EXCEL
deriving DecidableEq, Repr

/-- The string a `_FileKind` literal interpolates into a filename. -/
def kindChars : FileKind → List Char
  | .MIG => "MIG".toList
  | .AHB => "AHB".toList
  | .EBD => "EBD".toList
  | .XSD => "XSD".toList
  | .EXCEL => "EXCEL".toList

/-- One catalog record (`apidocument.Document`), restricted to the fields the
modelled operations read.  Plain API fields are carried verbatim.  The four
title extractions performed with `re` in the source (`file_kind`'s pattern
classification, `edifact_format`, `document_version`, and the
`Stand: DD.MM.YYYY` date used by `publication_date`) enter the model as the
fields `file_kind`, `edifact_format`, `document_version` and `standDate`;
`ValidDocument` below constrains them to exactly the shapes those regular
expressions can produce.  (`userId`, `id`, topic/sort fields are dead weight
for the modelled logic and omitted.) -/
structure Document where
  title : List Char
  validFrom : Date
  validTo : Option Date
  publicationDate : Option Date
  isConsolidatedReadingVersion : Bool
  isExtraordinaryPublication : Bool
  isErrorCorrection : Bool
  isInformationalReadingVersion : Bool
  fileType : List Char
  fileId : Nat
  isFree : Bool
  file_kind : Option FileKind
  edifact_format : Option (List Char)
  document_version : Option (List Char)
  standDate : Option Date
deriving DecidableEq, Repr

namespace Document

/-- `Document.gueltig_bis`: `validTo or date(9999, 12, 31)`. -/
def gueltig_bis (d : Document) : Date := d.validTo.getD ⟨9999, 12, 31⟩

/-- `Document.gueltig_ab`. -/
def gueltig_ab (d : Document) : Date := d.validFrom

/-- `Document.file_extension`: maps the content type to an extension;
`none` models the `NotImplementedError` raised for unknown `fileType`s. -/
def file_extension (d : Document) : Option (List Char) :=
  if d.fileType = "application/pdf".toList then some "pdf".toList
  else if d.fileType = "application/vnd.openxmlformats-officedocument.wordprocessingml.document".toList
    then some "docx".toList
  else if d.fileType = "XSD".toList then some "xsd".toList
  else if d.fileType = "application/vnd.openxmlformats-officedocument.spreadsheetml.sheet".toList
    then some "xlsx".toList
  else if d.fileType = "text/xml".toList then some "xml".toList
  else none

/-- `Document.is_consolidated_reading_version`. -/
def is_consolidated_reading_version (d : Document) : Bool :=
  d.isConsolidatedReadingVersion || containsSub "konsolidierte".toList (lowerStr d.title)

/-- `Document.is_error_correction`. -/
def is_error_correction (d : Document) : Bool :=
  d.isErrorCorrection || containsSub "fehler".toList (lowerStr d.title)

/-- `Document.is_extraordinary_publication`.  The first keyword is spelled
`"ausserordenlich"` — without the `t` — exactly as in the source. -/
def is_extraordinary_publication (d : Document) : Bool :=
  d.isExtraordinaryPublication
    || containsSub "ausserordenlich".toList (lowerStr d.title)
    || containsSub "außerordentlich".toList (lowerStr d.title)

/-- `Document.is_informational_reading_version`. -/
def is_informational_reading_version (d : Document) : Bool :=
  d.isInformationalReadingVersion || containsSub "informatorische".toList (lowerStr d.title)

/-- `Document.publication_date`: the API date if present, else the
`Stand: DD.MM.YYYY` date scraped from the title, else `None`. -/
def publication_date (d : Document) : Option Date :=
  d.publicationDate <|> d.standDate

end Document

/-- `Document.alternative_file_kind` (a function of `self.title` only).
`_AlternativeKindPattern` = `^(?P<name>\D+).*$`: with simple-match semantics
the captured group is the maximal non-digit prefix, and the match fails iff
the title is empty or starts with a digit (in which case the whole title is
used).  The result is then space-stripped, lowered and filtered to
`[A-Za-z]` — the sanitization applies on both branches, so the invariants
below do not depend on the regex outcome. -/
def alternative_file_kind (title : List Char) : List Char :=
  let r1 : List Char :=
    match title with
    | [] => title
    | c :: _ => if c.isDigit then title else pyStrip (title.takeWhile fun x => !x.isDigit)
  let r2 := pyStrip (r1.filter fun c => c ≠ ' ')
  (lowerStr r2).filter Char.isAlpha

/-! ## Version-string shapes -/

/-- The pydantic constraint on `DocumentMetadata.version`:
`^\d+\.\d+[a-z]?$`. -/
def plainVersionB (cs : List Char) : Bool :=
  let d1 := cs.takeWhile Char.isDigit
  decide (d1 ≠ []) &&
    match cs.dropWhile Char.isDigit with
    | '.' :: rest2 =>
      let d2 := rest2.takeWhile Char.isDigit
      decide (d2 ≠ []) &&
        match rest2.dropWhile Char.isDigit with
        | [] => true
        | [c] => c.isLower
        | _ => false
    | _ => false

/-- What `_VersionPattern`'s capture group `[GS]?\d+\.\d+[a-z]?` can
produce: a plain version, optionally preceded by `G` or `S`. -/
def titleVersionB (cs : List Char) : Bool :=
  match cs with
  | 'G' :: rest => plainVersionB rest
  | 'S' :: rest => plainVersionB rest
  | _ => plainVersionB cs

/-! ## Record validity and the filename encoder -/

/-- The shapes the title/catalog derivations of `apidocument.py` guarantee
for the extraction-result fields (dates are real `datetime.date` values with
four-digit years; a derived version matches `[GS]?\d+\.\d+[a-z]?`; a derived
format code is a non-empty upper-case token of the closed format set). -/
def validDocumentB (d : Document) : Bool :=
  validDate d.validFrom &&
  (match d.validTo with | none => true | some vt => validDate vt) &&
  (match d.publicationDate with | none => true | some p => validDate p) &&
  (match d.standDate with | none => true | some p => validDate p) &&
  (match d.document_version with | none => true | some v => titleVersionB v) &&
  (match d.edifact_format with | none => true | some f => decide (f ≠ []) && f.all Char.isUpper)

/-- The `'x'`/`'o'` encoding of a boolean flag. -/
def xoChar (b : Bool) : Char := if b then 'x' else 'o'

/-- The kind token interpolated for `{kind}`:
`self.file_kind or self.alternative_file_kind`. -/
def Document.kindToken (d : Document) : List Char :=
  match d.file_kind with
  | some k => kindChars k
  | none => alternative_file_kind d.title

/-- The flag string interpolated for `{flags}`, in the declared order
error-correction, extraordinary, consolidated, informational. -/
def Document.flagChars (d : Document) : List Char :=
  [xoChar d.is_error_correction, xoChar d.is_extraordinary_publication,
   xoChar d.is_consolidated_reading_version, xoChar d.is_informational_reading_version]

/-- `Document.get_meaningful_file_name`:
`kind _ edifact_format version _ from_date _ to_date _ publication_date _ flags _ id . extension`,
where the format part is `format + "_"` or empty, `{version}` falls back
to `"NV"`, the publication date falls back to `gueltig_ab`, and dates render
as `%Y%m%d`.  `none` models the `NotImplementedError` escaping from
`file_extension`. -/
def Document.get_meaningful_file_name (d : Document) : Option (List Char) :=
  (d.file_extension).map fun extension =>
    d.kindToken ++ '_' ::
      ((match d.edifact_format with | some f => f ++ ['_'] | none => []) ++
        ((d.document_version.getD "NV".toList) ++ '_' ::
          (strftimeYmd d.gueltig_ab ++ '_' ::
            (strftimeYmd d.gueltig_bis ++ '_' ::
              (strftimeYmd ((d.publication_date).getD d.gueltig_ab) ++ '_' ::
                (d.flagChars ++ '_' ::
                  (natToChars d.fileId ++ '.' :: extension)))))))

/-! ## The filename decoder (`documentmetadata.py`) -/

/-- `DocumentMetadata`: the structured information encoded in a filename. -/
structure DocumentMetadata where
  kind : Option FileKind
  edifact_format : Option (List Char)
  valid_from : Date
  valid_until : Date
  publication_date : Option Date
  version : Option (List Char)
  is_consolidated_reading_version : Bool
  is_extraordinary_publication : Bool
  is_error_correction : Bool
  is_informational_reading_version : Bool
  additional_text : Option (List Char)
  id : Nat
deriving DecidableEq, Repr

/-- Modelled from the spec: the closed catalog of `efoli.EdifactFormat`
codes (`decode` attempts to parse the seventh-from-last token against it,
leaving the format `None` on failure). -/
def knownEdifactFormats : List (List Char) :=
  ["APERAK", "COMDIS", "CONTRL", "IFTSTA", "INSRPT", "INVOIC", "MSCONS", "ORDCHG",
   "ORDERS", "ORDRSP", "PARTIN", "PRICAT", "QUOTES", "REMADV", "REQOTE", "UTILMD",
   "UTILTS"].map String.toList

/-- `DocumentMetadata.from_filename`: strips the extension, splits on `_`,
and reads the fields right-to-left; `none` models every raising path
(`IndexError` of a negative index, `int()`/`strptime` `ValueError`, the
four-way flag destructuring, and the pydantic `ValidationError` on the
decoded `version`). -/
def DocumentMetadata.from_filename (filename : List Char) : Option DocumentMetadata := do
  let filename_mod := dropExtPy filename
  let filename_parts := filename_mod.splitOn '_'
  let idStr ← negIdx filename_parts 1
  let _id ← parseNat idStr
  let flagsStr ← negIdx filename_parts 2
  let flags ← (match flagsStr with
    | [c1, c2, c3, c4] => some (c1, c2, c3, c4)
    | _ => none)
  let vfStr ← negIdx filename_parts 5
  let valid_from ← strptimeYmd vfStr
  let vtStr ← negIdx filename_parts 4
  let valid_to ← strptimeYmd vtStr
  let pdStr ← negIdx filename_parts 3
  let publ_date ← strptimeYmd pdStr
  let verStr ← negIdx filename_parts 6
  let version : Option (List Char) := if verStr = "NV".toList then none else some verStr
  let _ ← (match version with
    | none => some ()
    | some v => if plainVersionB v then some () else none)
  let kfa ← (if "MIG_".toList.isPrefixOf filename ∨ "AHB_".toList.isPrefixOf filename then
      (negIdx filename_parts 7).map fun fmtStr =>
        ((if "MIG_".toList.isPrefixOf filename then some FileKind.MIG else some FileKind.AHB),
          (if fmtStr ∈ knownEdifactFormats then some fmtStr else none),
          (none : Option (List Char)))
    else if "EBD_".toList.isPrefixOf filename then some (some FileKind.EBD, none, none)
    else if "xsd".toList.isSuffixOf filename then some (some FileKind.XSD, none, none)
    else if "xlsx".toList.isSuffixOf filename then some (some FileKind.EXCEL, none, none)
    else some (none, none, some filename_parts.headI))
  pure ⟨kfa.1, kfa.2.1, valid_from, valid_to, some publ_date, version,
    decide (flags.2.2.1.toLower = 'x'), decide (flags.2.1.toLower = 'x'),
    decide (flags.1.toLower = 'x'), decide (flags.2.2.2.toLower = 'x'),
    kfa.2.2, _id⟩

/-! ## Change detection (`utilities._have_different_metadata`) -/

/-- A parsed PDF, as far as the change detector reads it: the `is_encrypted`
flag and the document-information dictionary (`PdfReader(...).metadata`). -/
structure PdfFile where
  is_encrypted : Bool
  metadata : List (List Char × List Char)
deriving DecidableEq, Repr

/-- `_have_different_metadata` of `utilities.py`, over the parse results of
the two files (`none` = `PdfReader` raised, propagating out of the
function).  The new file is opened first; an encrypted new file returns
`True` before the old file is even opened. -/
def _have_different_metadata (pdf_new pdf_old : Option PdfFile) : Option Bool := do
  let pn ← pdf_new
  if pn.is_encrypted then some true
  else do
    let po ← pdf_old
    if po.is_encrypted then some true
    else some (decide (pn.metadata ≠ po.metadata))

/-! ## The replace decision of `scraper.download_document_per_fv` -/

/-- What happens to the previously stored file of the target name. -/
inductive StoreAction where
  | replaceWithNew | keepExisting
deriving DecidableEq, Repr

/-- The replace decision of `download_document_per_fv`: the freshly
downloaded temp file replaces the target unless the target exists, carries a
`.pdf` suffix and `_have_different_metadata` returned `False`.  The raw
contents are passed to show they are never consulted. -/
def download_document_per_fv_replace (file_path_exists : Bool) (suffix_is_pdf : Bool)
    (metadata_differ : Bool) (new_content : List Nat) (old_content : Option (List Nat)) :
    StoreAction :=
  if file_path_exists && suffix_is_pdf then
    (if metadata_differ then StoreAction.replaceWithNew else StoreAction.keepExisting)
  else StoreAction.replaceWithNew

/-- Modelled from the spec: "For content types without such embedded
metadata, fall back to raw byte-for-byte comparison" — replace exactly when
the new bytes differ from the stored bytes (or nothing is stored). -/
def spec_byte_comparison_decision (new_content : List Nat) (old_content : Option (List Nat)) :
    StoreAction :=
  match old_content with
  | none => StoreAction.replaceWithNew
  | some old =>
    if old = new_content then StoreAction.keepExisting else StoreAction.replaceWithNew

/-! ## Legacy `_get_file_path` (`__init__.py`) -/

/-- Directory name of a format version (the `StrEnum` value). -/
def fvChars : EdifactFormatVersion → List Char
  | .FV2104 => "FV2104".toList | .FV2110 => "FV2110".toList | .FV2204 => "FV2204".toList
  | .FV2210 => "FV2210".toList | .FV2304 => "FV2304".toList | .FV2310 => "FV2310".toList
  | .FV2404 => "FV2404".toList | .FV2410 => "FV2410".toList | .FV2504 => "FV2504".toList
  | .FV2510 => "FV2510".toList

/-- `EdiEnergyScraper._get_file_path`: raises `ValueError` on a slash in the
file name, then files the name under the format-version directory derived
from the last `_`-separated stem token (`get_edifact_version_from_filename`,
whose `strptime` raises on a non-date token). -/
def _get_file_path (root_dir : List Char) (file_name : List Char) :
    Except (List Char) (List Char) :=
  if '/' ∈ file_name then Except.error "file names must not contain slashes".toList
  else
    match (negIdx ((stemPy file_name).splitOn '_') 1).bind strptimeYmd with
    | none => Except.error "ValueError".toList
    | some d =>
      Except.ok (root_dir ++ '/' ::
        (fvChars (get_edifact_format_version d) ++ '/' :: file_name))

/-! ## The mirror reconciler (`scraper.py`) -/

/-- Sequential effect of a `for`-loop collecting `Option` results: `none` as
soon as one element raises (python's uncaught exception). -/
def mapO {α β : Type} (f : α → Option β) : List α → Option (List β)
  | [] => some []
  | a :: l =>
    match f a, mapO f l with
    | some b, some r => some (b :: r)
    | _, _ => none

/-- The dict `{str(d.fileId): Path(d.get_meaningful_file_name()).stem for d
in documents}` of `_remove_old_files`, as an association list (later
entries shadow earlier ones, as in a python dict comprehension); `none`
models `get_meaningful_file_name` raising. -/
def file_id_stem_mapping (documents : List Document) :
    Option (List (List Char × List Char)) :=
  mapO (fun d => (d.get_meaningful_file_name).map fun fn =>
    (natToChars d.fileId, stemPy fn)) documents

/-- Lookup in the association list with python-dict semantics: the last
binding of a key wins. -/
def dictLookup (m : List (List Char × List Char)) (k : List Char) : Option (List Char) :=
  (m.reverse.find? fun p => decide (p.1 = k)).map Prod.snd

/-- The keep condition of `_remove_old_files`: the trailing `_`-token of the
file's stem is a current `fileId` and the whole stem equals that id's
freshly computed stem. -/
def keep_file (documents : List Document) (mapping : List (List Char × List Char))
    (name : List Char) : Bool :=
  decide ((((stemPy name).splitOn '_').getLastD []) ∈
      documents.map fun d => natToChars d.fileId) &&
    decide (dictLookup mapping (((stemPy name).splitOn '_').getLastD []) =
      some (stemPy name))

/-- `EdiEnergyScraper._remove_old_files`: returns the removed (unlinked)
file names; `none` models `get_meaningful_file_name` raising while the
mapping is built. -/
def _remove_old_files (documents : List Document) (existing : List (List Char)) :
    Option (List (List Char)) :=
  (file_id_stem_mapping documents).map fun mapping =>
    existing.filter fun n => ! keep_file documents mapping n

/-- One observable step of a `mirror` run. -/
inductive MirrorEvent where
  | download (fv : EdifactFormatVersion) (file_name : List Char)
  | evict (removed : List (List Char))
deriving DecidableEq, Repr

/-- `download_document_for_all_fv`: one download of the document's file per
valid format version; `none` models the `NotImplementedError` from
`get_meaningful_file_name` inside `download_document_per_fv`. -/
def download_document_for_all_fv (d : Document) : Option (List MirrorEvent) :=
  (d.get_meaningful_file_name).map fun fn =>
    (_get_valid_format_versions d.validFrom d.validTo).map fun fv =>
      MirrorEvent.download fv fn

/-- `EdiEnergyScraper.mirror`: gather all downloads of the free documents
(an exception in any task propagates out of `asyncio.gather` and aborts the
run), then — only afterwards — evict.  The resulting event list records the
phase order. -/
def mirror (documents : List Document) (existing : List (List Char)) :
    Option (List MirrorEvent) := do
  let download_events ← mapO download_document_for_all_fv
    (documents.filter fun d => d.isFree)
  let removed ← _remove_old_files documents existing
  some (download_events.flatten ++ [MirrorEvent.evict removed])

/-- The desired set of the spec's Plan phase: the target file names of all
downloadable records. -/
def desired_file_names (documents : List Document) : List (List Char) :=
  (documents.filter fun d => d.isFree).filterMap Document.get_meaningful_file_name

/-- The record exhibiting the misspelled keyword: catalog flag unset, title
containing the (non-umlaut) word "ausserordentlich". -/
def c8_document : Document :=
  ⟨"Ausserordentliche Lesefassung".toList, ⟨2024, 1, 1⟩, none, none,
   false, false, false, false, "application/pdf".toList, 7, true,
   none, none, none, none⟩

/-- The catalog record of the eviction counterexample: an `.xlsx` document
with `fileId` 42. -/
def c4_document : Document :=
  ⟨"foo".toList, ⟨2024, 4, 1⟩, some ⟨2025, 4, 1⟩, none,
   false, false, false, false,
   "application/vnd.openxmlformats-officedocument.spreadsheetml.sheet".toList, 42, true,
   some FileKind.EXCEL, none, none, none⟩

/-- A stale mirror file: same stem as `c4_document`'s target filename, but a
`.pdf` extension (e.g. left over from before the upstream `fileType`
changed). -/
def c4_stale_name : List Char :=
  "EXCEL_NV_20240401_20250401_20240401_oooo_42.pdf".toList

/-- A downloadable record with an unsupported content type. -/
def c5_bad_document : Document :=
  ⟨"Unsupported thing".toList, ⟨2024, 1, 1⟩, none, none,
   false, false, false, false, "image/png".toList, 99, true,
   none, none, none, none⟩

/-- A perfectly fine downloadable record. -/
def c5_good_document : Document :=
  ⟨"Good document".toList, ⟨2024, 1, 1⟩, none, none,
   false, false, false, false, "application/pdf".toList, 100, true,
   none, none, none, none⟩

/-- A record whose (regex-unconstrained) version field carries a slash. -/
def c9_document : Document :=
  ⟨"Good document".toList, ⟨2024, 1, 1⟩, none, none,
   false, false, false, false, "application/pdf".toList, 5, true,
   none, none, some "1/2".toList, none⟩

/-! ## C1: witness and counterexample records -/

/-- The spec's scenario record: an IFTSTA MIG, pdf, `fileId` 42. -/
def c1_document : Document :=
  ⟨"IFTSTA MIG 2.0e".toList, ⟨2023, 10, 1⟩, some ⟨2024, 9, 30⟩, none,
   false, false, false, false, "application/pdf".toList, 42, true,
   some FileKind.MIG, some "IFTSTA".toList, some "2.0e".toList, none⟩

/-- A perfectly valid record whose title-derived version carries the `S`
prefix that `_VersionPattern` admits. -/
def c1_document_gs : Document :=
  ⟨"Entscheidungsbaum-Diagramme S1.1".toList, ⟨2024, 4, 1⟩, none, none,
   false, false, false, false, "application/pdf".toList, 123, true,
   some FileKind.EBD, none, some "S1.1".toList, none⟩


/-! # Theorems

All lemmas and claim theorems about the definitions above. -/

theorem natToCharsAux_fuel_irrel (fuel₁ fuel₂ n : Nat) (h₁ : n < fuel₁) (h₂ : n < fuel₂) :
    natToCharsAux fuel₁ n = natToCharsAux fuel₂ n := by
  induction n using Nat.strong_induction_on generalizing fuel₁ fuel₂ with
  | _ n ih =>
    match fuel₁, fuel₂ with
    | f₁ + 1, f₂ + 1 =>
      simp only [natToCharsAux]
      split
      · rfl
      · rw [ih (n / 10) (by omega) (f₁) (f₂) (by omega) (by omega)]

theorem natToChars_eq (n : Nat) :
    natToChars n = if n < 10 then [Nat.digitChar n] else natToChars (n / 10) ++ [Nat.digitChar (n % 10)] := by
  show natToCharsAux (n + 1) n = _
  simp only [natToCharsAux]
  split
  · rfl
  · rw [natToCharsAux_fuel_irrel n (n / 10 + 1) (n / 10) (by omega) (by omega)]
    rfl

theorem digitChar_val {d : Nat} (h : d < 10) : charVal (Nat.digitChar d) = d := by
  interval_cases d <;> rfl

theorem digitChar_isDigit {d : Nat} (h : d < 10) : (Nat.digitChar d).isDigit = true := by
  interval_cases d <;> rfl

theorem charsToNat_append (l : List Char) (c : Char) :
    charsToNat (l ++ [c]) = charsToNat l * 10 + charVal c := by
  simp [charsToNat, List.foldl_append]

theorem charsToNat_natToChars (n : Nat) : charsToNat (natToChars n) = n := by
  induction n using Nat.strong_induction_on with
  | _ n ih =>
    rw [natToChars_eq]
    split
    · simp only [charsToNat, List.foldl]
      rw [digitChar_val (by omega)]
      omega
    · rw [charsToNat_append, ih (n / 10) (by omega), digitChar_val (by omega)]
      omega

theorem natToChars_all_digits (n : Nat) : ∀ c ∈ natToChars n, c.isDigit = true := by
  induction n using Nat.strong_induction_on with
  | _ n ih =>
    rw [natToChars_eq]
    split
    · intro c hc
      simp only [List.mem_singleton] at hc
      subst hc
      exact digitChar_isDigit (by omega)
    · intro c hc
      rcases List.mem_append.mp hc with h | h
      · exact ih (n / 10) (by omega) c h
      · simp only [List.mem_singleton] at h
        subst h
        exact digitChar_isDigit (Nat.mod_lt _ (by omega))

theorem natToChars_ne_nil (n : Nat) : natToChars n ≠ [] := by
  rw [natToChars_eq]
  split
  · simp
  · simp

theorem parseNat_natToChars (n : Nat) : parseNat (natToChars n) = some n := by
  unfold parseNat
  rw [if_pos, charsToNat_natToChars]
  exact ⟨natToChars_ne_nil n, List.all_eq_true.mpr (natToChars_all_digits n)⟩

theorem natToChars_injective {m n : Nat} (h : natToChars m = natToChars n) : m = n := by
  have hm := charsToNat_natToChars m
  rw [h, charsToNat_natToChars] at hm
  omega

/-- Length of the decimal rendering of a four-digit number. -/
theorem natToChars_length_four {n : Nat} (h₁ : 1000 ≤ n) (h₂ : n ≤ 9999) :
    (natToChars n).length = 4 := by
  rw [natToChars_eq, if_neg (by omega), List.length_append,
    natToChars_eq, if_neg (by omega), List.length_append,
    natToChars_eq, if_neg (by omega), List.length_append,
    natToChars_eq, if_pos (by omega)]
  rfl

theorem natToChars_length_le_two {n : Nat} (h : n ≤ 99) : (natToChars n).length ≤ 2 := by
  rw [natToChars_eq]
  split
  · simp
  · rw [List.length_append, natToChars_eq, if_pos (by omega)]
    rfl

theorem natToChars_length_two {n : Nat} (h₁ : 10 ≤ n) (h₂ : n ≤ 99) :
    (natToChars n).length = 2 := by
  rw [natToChars_eq, if_neg (by omega), List.length_append, natToChars_eq, if_pos (by omega)]
  rfl

theorem natToChars_length_one {n : Nat} (h : n < 10) : (natToChars n).length = 1 := by
  rw [natToChars_eq, if_pos h]
  rfl

theorem dateLe_refl (a : Date) : dateLe a a = true := by
  simp [dateLe]

theorem dateLe_trans {a b c : Date} (h₁ : dateLe a b = true) (h₂ : dateLe b c = true) :
    dateLe a c = true := by
  simp only [dateLe, decide_eq_true_eq] at *
  omega

theorem dateLe_total (a b : Date) : dateLe a b = true ∨ dateLe b a = true := by
  simp only [dateLe, decide_eq_true_eq]
  omega

theorem charsToNat_pad2 (n : Nat) : charsToNat (pad2 n) = n := by
  unfold pad2
  split
  · have : charsToNat ('0' :: natToChars n) = charsToNat (natToChars n) := by
      simp [charsToNat, charVal]
    rw [this, charsToNat_natToChars]
  · exact charsToNat_natToChars n

theorem pad2_length {n : Nat} (h : n ≤ 99) : (pad2 n).length = 2 := by
  unfold pad2
  split
  · simp [natToChars_length_one, *]
  · exact natToChars_length_two (by omega) h

theorem pad2_all_digits (n : Nat) : ∀ c ∈ pad2 n, c.isDigit = true := by
  unfold pad2
  split
  · intro c hc
    rcases List.mem_cons.mp hc with rfl | h
    · rfl
    · exact natToChars_all_digits n c h
  · exact natToChars_all_digits n

theorem strftimeYmd_all_digits {d : Date} : ∀ c ∈ strftimeYmd d, c.isDigit = true := by
  intro c hc
  unfold strftimeYmd at hc
  rcases List.mem_append.mp hc with h | h
  · rcases List.mem_append.mp h with h' | h'
    · exact natToChars_all_digits _ c h'
    · exact pad2_all_digits _ c h'
  · exact pad2_all_digits _ c h

theorem strftimeYmd_length {d : Date} (h : validDate d = true) :
    (strftimeYmd d).length = 8 := by
  simp only [validDate, decide_eq_true_eq] at h
  unfold strftimeYmd
  rw [List.length_append, List.length_append,
    natToChars_length_four (by omega) (by omega),
    pad2_length (by omega), pad2_length]
  have hd := h.2.2.2.2.2
  have : daysInMonth d.year d.month ≤ 31 := by
    unfold daysInMonth
    split
    · split <;> omega
    · split <;> omega
  omega

/-- Parsing a formatted valid date recovers the date. -/
theorem strptimeYmd_strftimeYmd {d : Date} (h : validDate d = true) :
    strptimeYmd (strftimeYmd d) = some d := by
  have hv := h
  simp only [validDate, decide_eq_true_eq] at hv
  obtain ⟨h1, h2, h3, h4, h5, h6⟩ := hv
  have hylen : (natToChars d.year).length = 4 := natToChars_length_four h1 h2
  have hmlen : (pad2 d.month).length = 2 := pad2_length (by omega)
  have hdm : daysInMonth d.year d.month ≤ 31 := by
    unfold daysInMonth
    split
    · split <;> omega
    · split <;> omega
  have hdlen : (pad2 d.day).length = 2 := pad2_length (by omega)
  have htake : (strftimeYmd d).take 4 = natToChars d.year := by
    unfold strftimeYmd
    rw [List.append_assoc]
    exact List.take_left' hylen
  have hdrop4 : (strftimeYmd d).drop 4 = pad2 d.month ++ pad2 d.day := by
    unfold strftimeYmd
    rw [List.append_assoc]
    exact List.drop_left' hylen
  have hdrop6 : (strftimeYmd d).drop 6 = pad2 d.day := by
    unfold strftimeYmd
    exact List.drop_left' (by rw [List.length_append]; omega)
  unfold strptimeYmd
  rw [if_pos ⟨strftimeYmd_length h, List.all_eq_true.mpr strftimeYmd_all_digits⟩]
  rw [htake, hdrop4, hdrop6, charsToNat_natToChars, List.take_left' hmlen,
    charsToNat_pad2, charsToNat_pad2]
  rw [if_pos ⟨h3, h4, h5, h6⟩]

theorem modifyHead_append {α : Type} (f : List α → List α) {l₁ : List (List α)}
    (h : l₁ ≠ []) (l₂ : List (List α)) :
    (l₁ ++ l₂).modifyHead f = l₁.modifyHead f ++ l₂ := by
  cases l₁ with
  | nil => exact absurd rfl h
  | cons a l => rfl

theorem splitOn_single {α : Type} [DecidableEq α] {sep : α} {a : List α} (h : sep ∉ a) :
    a.splitOn sep = [a] := by
  refine List.splitOnP_eq_single _ _ fun x hx => ?_
  simp only [beq_iff_eq]
  rintro rfl
  exact h hx

theorem splitOn_sep_first {α : Type} [DecidableEq α] {sep : α} {a : List α} (h : sep ∉ a)
    (b : List α) : (a ++ sep :: b).splitOn sep = a :: b.splitOn sep := by
  refine List.splitOnP_first _ _ (fun x hx => ?_) sep (by simp) b
  simp only [beq_iff_eq]
  rintro rfl
  exact h hx

theorem splitOn_sep_last {α : Type} [DecidableEq α] {sep : α} {b : List α} (hb : sep ∉ b) :
    ∀ a : List α, (a ++ sep :: b).splitOn sep = a.splitOn sep ++ [b]
  | [] => by
    simp only [List.nil_append, List.splitOn, List.splitOnP_cons, beq_self_eq_true, if_pos]
    rw [List.splitOnP_eq_single]
    · rfl
    · intro x hx
      simp only [beq_iff_eq]
      rintro rfl
      exact hb hx
  | c :: a => by
    show ((c :: (a ++ sep :: b)).splitOn sep) = _
    simp only [List.splitOn, List.splitOnP_cons]
    by_cases hc : c = sep
    · subst hc
      simp only [beq_self_eq_true, if_pos]
      have := splitOn_sep_last hb a
      simp only [List.splitOn] at this
      rw [this]
      rfl
    · rw [if_neg (by simpa using hc), if_neg (by simpa using hc)]
      have := splitOn_sep_last hb a
      simp only [List.splitOn] at this
      rw [this, modifyHead_append _ (List.splitOnP_ne_nil _ _)]

theorem dropExtPy_append {body ext : List Char} (hext : '.' ∉ ext) :
    dropExtPy (body ++ '.' :: ext) = body := by
  unfold dropExtPy
  rw [splitOn_sep_last hext, List.dropLast_concat]
  exact List.intercalate_splitOn body '.'

theorem stemPy_append {body ext : List Char} (hext : '.' ∉ ext) :
    stemPy (body ++ '.' :: ext) = body := by
  unfold stemPy
  rw [splitOn_sep_last hext]
  rw [if_neg]
  · exact dropExtPy_append hext
  · have := List.splitOnP_ne_nil (fun c : Char => c == '.') body
    simp only [List.length_append, List.length_singleton]
    have : (body.splitOn '.').length ≠ 0 := by
      simpa [List.length_eq_zero] using this
    omega

theorem EdifactFormatVersion.le_def {a b : EdifactFormatVersion} : a ≤ b ↔ toIdx a ≤ toIdx b := Iff.rfl

theorem EdifactFormatVersion.toIdx_le_nine (v : EdifactFormatVersion) : toIdx v ≤ 9 := by cases v <;> decide

theorem EdifactFormatVersion.toIdx_ofIdx (n : Nat) : toIdx (ofIdx n) = min n 9 := by
  match n with
  | 0 | 1 | 2 | 3 | 4 | 5 | 6 | 7 | 8 => rfl
  | k + 9 =>
    show toIdx (ofIdx (k + 9)) = _
    have : ofIdx (k + 9) = FV2510 := by
      match k with
      | 0 => rfl
      | k + 1 => rfl
    rw [this]
    simp only [toIdx]
    omega

theorem EdifactFormatVersion.ofIdx_toIdx (v : EdifactFormatVersion) : ofIdx (toIdx v) = v := by cases v <;> rfl

theorem EdifactFormatVersion.toIdx_inj {a b : EdifactFormatVersion} (h : toIdx a = toIdx b) : a = b := by
  have := congrArg ofIdx h
  rwa [ofIdx_toIdx, ofIdx_toIdx] at this

theorem mem_versionsList (v : EdifactFormatVersion) : v ∈ versionsList := by
  cases v <;> decide

theorem versionsList_get (i : Nat) {v : EdifactFormatVersion}
    (h : versionsList.get? i = some v) : EdifactFormatVersion.toIdx v = i := by
  match i with
  | 0 | 1 | 2 | 3 | 4 | 5 | 6 | 7 | 8 | 9 =>
    simp only [versionsList, List.get?] at h
    cases h
    rfl
  | n + 10 =>
    have : versionsList.get? (n + 10) = none := by
      apply List.get?_eq_none.mpr
      simp [versionsList]
    rw [this] at h
    cases h

theorem versionsList_sorted : List.Sorted (· < ·) versionsList := by decide

theorem get_edifact_format_version_mono {a b : Date} (h : dateLe a b = true) :
    get_edifact_format_version a ≤ get_edifact_format_version b := by
  unfold get_edifact_format_version
  rw [EdifactFormatVersion.le_def, EdifactFormatVersion.toIdx_ofIdx,
    EdifactFormatVersion.toIdx_ofIdx]
  have : boundaries.countP (fun x => dateLe x a) ≤ boundaries.countP (fun x => dateLe x b) :=
    List.countP_mono_left fun x _ hx => dateLe_trans hx h
  omega

theorem le_maximumFormatVersion (v : EdifactFormatVersion) : v ≤ maximumFormatVersion := by
  rw [EdifactFormatVersion.le_def]
  exact EdifactFormatVersion.toIdx_le_nine v

theorem mem_take_get? {α : Type} {v : α} :
    ∀ (k : Nat) (l : List α), v ∈ l.take k → ∃ j, j < k ∧ l.get? j = some v := by
  intro k l
  induction l generalizing k with
  | nil => simp
  | cons x xs ih =>
    match k with
    | 0 => simp
    | k + 1 =>
      intro h
      rcases List.mem_cons.mp h with rfl | h'
      · exact ⟨0, by omega, rfl⟩
      · obtain ⟨j, hj, hget⟩ := ih k h'
        exact ⟨j + 1, by omega, hget⟩

theorem mem_pySlice_versionsList {a b : Nat} {v : EdifactFormatVersion}
    (h : v ∈ pySlice versionsList a b) :
    a ≤ EdifactFormatVersion.toIdx v ∧ EdifactFormatVersion.toIdx v < b := by
  obtain ⟨j, hj, hget⟩ := mem_take_get? _ _ h
  have : versionsList.get? (a + j) = some v := by
    rw [List.get?_eq_getElem?] at hget ⊢
    rw [← List.getElem?_drop]
    exact hget
  have := versionsList_get _ this
  omega

/-! ## Character classification helpers -/

theorem char_toNat_ofNat {m : Nat} (h : m < 55296) : (Char.ofNat m).toNat = m := by
  rw [Char.ofNat, dif_pos (Or.inl h)]
  simp [Char.ofNatAux, Char.toNat, UInt32.toNat]

theorem isLower_eq_toNat (c : Char) : c.isLower = (97 ≤ c.toNat && c.toNat ≤ 122) := by
  simp only [Char.isLower, Char.toNat, UInt32.le_def, BitVec.le_def]
  rfl

theorem isUpper_eq_toNat (c : Char) : c.isUpper = (65 ≤ c.toNat && c.toNat ≤ 90) := by
  simp only [Char.isUpper, Char.toNat, UInt32.le_def, BitVec.le_def]
  rfl

theorem isDigit_eq_toNat (c : Char) : c.isDigit = (48 ≤ c.toNat && c.toNat ≤ 57) := by
  simp only [Char.isDigit, Char.toNat, UInt32.le_def, BitVec.le_def]
  rfl

/-- `str.lower()` never produces an ASCII letter that is upper case: a letter
surviving the `[A-Za-z]` filter after lowering is lower case. -/
theorem toLower_isLower_of_isAlpha {x : Char} (h : (Char.toLower x).isAlpha = true) :
    (Char.toLower x).isLower = true := by
  unfold Char.toLower at h ⊢
  by_cases hc : Char.toNat x ≥ 65 ∧ Char.toNat x ≤ 90
  · rw [if_pos hc] at h ⊢
    have hv : (Char.ofNat (Char.toNat x + 32)).toNat = Char.toNat x + 32 :=
      char_toNat_ofNat (by omega)
    rw [isLower_eq_toNat, hv]
    simp only [Bool.and_eq_true, decide_eq_true_eq]
    omega
  · rw [if_neg hc] at h ⊢
    have : x.isUpper = false := by
      rw [isUpper_eq_toNat]
      simp only [Bool.and_eq_false_iff, decide_eq_false_iff_not]
      omega
    unfold Char.isAlpha at h
    rw [this] at h
    simpa using h

theorem isLower_toNat {c : Char} (h : c.isLower = true) : 97 ≤ c.toNat ∧ c.toNat ≤ 122 := by
  rw [isLower_eq_toNat] at h
  simpa using h

theorem isUpper_toNat {c : Char} (h : c.isUpper = true) : 65 ≤ c.toNat ∧ c.toNat ≤ 90 := by
  rw [isUpper_eq_toNat] at h
  simpa using h

theorem isDigit_toNat {c : Char} (h : c.isDigit = true) : 48 ≤ c.toNat ∧ c.toNat ≤ 57 := by
  rw [isDigit_eq_toNat] at h
  simpa using h

theorem char_ne_of_toNat_ne {c d : Char} (h : c.toNat ≠ d.toNat) : c ≠ d := by
  intro he
  exact h (congrArg Char.toNat he)

/-- Every character of `alternative_file_kind` is a lower-case ASCII letter. -/
theorem alternative_file_kind_isLower {title : List Char} :
    ∀ c ∈ alternative_file_kind title, c.isLower = true := by
  intro c hc
  unfold alternative_file_kind at hc
  rw [List.mem_filter] at hc
  obtain ⟨hmem, halpha⟩ := hc
  unfold lowerStr at hmem
  rw [List.mem_map] at hmem
  obtain ⟨x, _, rfl⟩ := hmem
  exact toLower_isLower_of_isAlpha halpha

theorem alternative_file_kind_no_sep {title : List Char} :
    ∀ c ∈ alternative_file_kind title, c ≠ '_' ∧ c ≠ '.' ∧ c ≠ '/' := by
  intro c hc
  have h := isLower_toNat (alternative_file_kind_isLower c hc)
  have h1 : ('_' : Char).toNat = 95 := rfl
  have h2 : ('.' : Char).toNat = 46 := rfl
  have h3 : ('/' : Char).toNat = 47 := rfl
  exact ⟨char_ne_of_toNat_ne (by omega), char_ne_of_toNat_ne (by omega),
    char_ne_of_toNat_ne (by omega)⟩

theorem plainVersionB_chars {cs : List Char} (h : plainVersionB cs = true) :
    ∀ c ∈ cs, c.isDigit = true ∨ c = '.' ∨ c.isLower = true := by
  unfold plainVersionB at h
  simp only [Bool.and_eq_true, decide_eq_true_eq] at h
  obtain ⟨-, h⟩ := h
  intro c hc
  rw [← List.takeWhile_append_dropWhile (p := Char.isDigit) (l := cs)] at hc
  rcases List.mem_append.mp hc with h1 | h1
  · exact Or.inl (List.mem_takeWhile_imp h1)
  · split at h
    case h_2 => cases h
    case h_1 rest2 heq =>
      rw [heq] at h1
      simp only [Bool.and_eq_true, decide_eq_true_eq] at h
      obtain ⟨-, h⟩ := h
      rcases List.mem_cons.mp h1 with rfl | h2
      · exact Or.inr (Or.inl rfl)
      · rw [← List.takeWhile_append_dropWhile (p := Char.isDigit) (l := rest2)] at h2
        rcases List.mem_append.mp h2 with h3 | h3
        · exact Or.inl (List.mem_takeWhile_imp h3)
        · split at h
          case h_1 heq2 => rw [heq2] at h3; cases h3
          case h_2 y heq2 =>
            rw [heq2] at h3
            rcases List.mem_cons.mp h3 with rfl | h4
            · exact Or.inr (Or.inr h)
            · cases h4
          case h_3 => cases h

theorem titleVersionB_chars {cs : List Char} (h : titleVersionB cs = true) :
    ∀ c ∈ cs, c.isDigit = true ∨ c = '.' ∨ c.isLower = true ∨ c = 'G' ∨ c = 'S' := by
  intro c hc
  have plain : ∀ {l : List Char}, plainVersionB l = true → c ∈ l →
      c.isDigit = true ∨ c = '.' ∨ c.isLower = true ∨ c = 'G' ∨ c = 'S' := by
    intro l hl hcl
    rcases plainVersionB_chars hl c hcl with h' | h' | h'
    · exact Or.inl h'
    · exact Or.inr (Or.inl h')
    · exact Or.inr (Or.inr (Or.inl h'))
  unfold titleVersionB at h
  split at h
  case h_1 rest =>
    rcases List.mem_cons.mp hc with rfl | h2
    · exact Or.inr (Or.inr (Or.inr (Or.inl rfl)))
    · exact plain h h2
  case h_2 rest =>
    rcases List.mem_cons.mp hc with rfl | h2
    · exact Or.inr (Or.inr (Or.inr (Or.inr rfl)))
    · exact plain h h2
  case h_3 => exact plain h hc

/-- Characters allowed in a version token exclude the separators. -/
theorem titleVersionB_no_sep {cs : List Char} (h : titleVersionB cs = true) :
    ∀ c ∈ cs, c ≠ '_' ∧ c ≠ '/' := by
  intro c hc
  have h1 : ('_' : Char).toNat = 95 := rfl
  have h2 : ('/' : Char).toNat = 47 := rfl
  have h3 : ('.' : Char).toNat = 46 := rfl
  have h4 : ('G' : Char).toNat = 71 := rfl
  have h5 : ('S' : Char).toNat = 83 := rfl
  rcases titleVersionB_chars h c hc with h' | rfl | h' | rfl | rfl
  · have := isDigit_toNat h'
    exact ⟨char_ne_of_toNat_ne (by omega), char_ne_of_toNat_ne (by omega)⟩
  · exact ⟨char_ne_of_toNat_ne (by omega), char_ne_of_toNat_ne (by omega)⟩
  · have := isLower_toNat h'
    exact ⟨char_ne_of_toNat_ne (by omega), char_ne_of_toNat_ne (by omega)⟩
  · exact ⟨char_ne_of_toNat_ne (by omega), char_ne_of_toNat_ne (by omega)⟩
  · exact ⟨char_ne_of_toNat_ne (by omega), char_ne_of_toNat_ne (by omega)⟩

theorem kindChars_no_sep (k : FileKind) : ∀ c ∈ kindChars k, c ≠ '_' ∧ c ≠ '.' ∧ c ≠ '/' := by
  cases k <;> decide

theorem kindToken_no_sep {d : Document} :
    ∀ c ∈ d.kindToken, c ≠ '_' ∧ c ≠ '.' ∧ c ≠ '/' := by
  unfold Document.kindToken
  cases d.file_kind with
  | some k => exact kindChars_no_sep k
  | none => exact alternative_file_kind_no_sep

theorem file_extension_shape {d : Document} {ext : List Char}
    (h : d.file_extension = some ext) :
    ext = "pdf".toList ∨ ext = "docx".toList ∨ ext = "xsd".toList ∨
      ext = "xlsx".toList ∨ ext = "xml".toList := by
  unfold Document.file_extension at h
  split at h
  · exact Or.inl (by cases h; rfl)
  · split at h
    · exact Or.inr (Or.inl (by cases h; rfl))
    · split at h
      · exact Or.inr (Or.inr (Or.inl (by cases h; rfl)))
      · split at h
        · exact Or.inr (Or.inr (Or.inr (Or.inl (by cases h; rfl))))
        · split at h
          · exact Or.inr (Or.inr (Or.inr (Or.inr (by cases h; rfl))))
          · cases h

theorem file_extension_no_dot {d : Document} {ext : List Char}
    (h : d.file_extension = some ext) : '.' ∉ ext := by
  rcases file_extension_shape h with rfl | rfl | rfl | rfl | rfl <;> decide

theorem upper_no_sep {f : List Char} (hf : f.all Char.isUpper = true) :
    ∀ c ∈ f, c ≠ '_' ∧ c ≠ '/' := by
  intro c hc
  have := isUpper_toNat (List.all_eq_true.mp hf c hc)
  have h1 : ('_' : Char).toNat = 95 := rfl
  have h2 : ('/' : Char).toNat = 47 := rfl
  exact ⟨char_ne_of_toNat_ne (by omega), char_ne_of_toNat_ne (by omega)⟩

theorem digit_ne_sep {c : Char} (hc : c.isDigit = true) : c ≠ '_' ∧ c ≠ '/' := by
  have := isDigit_toNat hc
  have h1 : ('_' : Char).toNat = 95 := rfl
  have h2 : ('/' : Char).toNat = 47 := rfl
  exact ⟨char_ne_of_toNat_ne (by omega), char_ne_of_toNat_ne (by omega)⟩

theorem xoChar_ne (b : Bool) : xoChar b ≠ '_' ∧ xoChar b ≠ '/' ∧ xoChar b ≠ '.' := by
  cases b <;> decide

theorem flagChars_not_mem_sep (d : Document) : '_' ∉ d.flagChars := by
  intro hmem
  simp only [Document.flagChars, List.mem_cons, List.not_mem_nil, or_false] at hmem
  rcases hmem with h | h | h | h <;> exact (xoChar_ne _).1 h.symm

theorem notMem_of_forall_ne {α : Type} {x : α} {l : List α}
    (h : ∀ c ∈ l, c ≠ x) : x ∉ l := fun hmem => h x hmem rfl

theorem natToChars_not_mem_sep (n : Nat) : '_' ∉ natToChars n := by
  apply notMem_of_forall_ne
  intro c hc
  exact (digit_ne_sep (natToChars_all_digits n c hc)).1

theorem strftimeYmd_not_mem_sep (d : Date) : '_' ∉ strftimeYmd d := by
  apply notMem_of_forall_ne
  intro c hc
  exact (digit_ne_sep (strftimeYmd_all_digits c hc)).1

theorem plainVersionB_NV : plainVersionB "NV".toList = false := by decide

theorem negIdx_seven {α : Type} (a b c d e f g : α) :
    negIdx [a, b, c, d, e, f, g] 1 = some g ∧
    negIdx [a, b, c, d, e, f, g] 2 = some f ∧
    negIdx [a, b, c, d, e, f, g] 3 = some e ∧
    negIdx [a, b, c, d, e, f, g] 4 = some d ∧
    negIdx [a, b, c, d, e, f, g] 5 = some c ∧
    negIdx [a, b, c, d, e, f, g] 6 = some b ∧
    negIdx [a, b, c, d, e, f, g] 7 = some a := by
  refine ⟨?_, ?_, ?_, ?_, ?_, ?_, ?_⟩ <;> simp [negIdx]

theorem negIdx_eight {α : Type} (a b c d e f g h : α) :
    negIdx [a, b, c, d, e, f, g, h] 1 = some h ∧
    negIdx [a, b, c, d, e, f, g, h] 2 = some g ∧
    negIdx [a, b, c, d, e, f, g, h] 3 = some f ∧
    negIdx [a, b, c, d, e, f, g, h] 4 = some e ∧
    negIdx [a, b, c, d, e, f, g, h] 5 = some d ∧
    negIdx [a, b, c, d, e, f, g, h] 6 = some c ∧
    negIdx [a, b, c, d, e, f, g, h] 7 = some b := by
  refine ⟨?_, ?_, ?_, ?_, ?_, ?_, ?_⟩ <;> simp [negIdx]

/-- Splitting the encoded body on `_` recovers the component tokens. -/
theorem encoded_parts (d : Document)
    (hv : validDocumentB d = true) :
    (d.kindToken ++ '_' ::
      ((match d.edifact_format with | some f => f ++ ['_'] | none => []) ++
        ((d.document_version.getD "NV".toList) ++ '_' ::
          (strftimeYmd d.gueltig_ab ++ '_' ::
            (strftimeYmd d.gueltig_bis ++ '_' ::
              (strftimeYmd ((d.publication_date).getD d.gueltig_ab) ++ '_' ::
                (d.flagChars ++ '_' :: natToChars d.fileId))))))).splitOn '_' =
      d.kindToken ::
        (match d.edifact_format with | some f => [f] | none => []) ++
          [d.document_version.getD "NV".toList,
           strftimeYmd d.gueltig_ab, strftimeYmd d.gueltig_bis,
           strftimeYmd ((d.publication_date).getD d.gueltig_ab),
           d.flagChars, natToChars d.fileId] := by
  have hkt : '_' ∉ d.kindToken := notMem_of_forall_ne fun c hc => (kindToken_no_sep c hc).1
  have hver : '_' ∉ d.document_version.getD "NV".toList := by
    cases hdv : d.document_version with
    | none => decide
    | some v =>
      simp only [Option.getD_some]
      apply notMem_of_forall_ne
      intro c hc
      have hva : titleVersionB v = true := by
        simp only [validDocumentB, Bool.and_eq_true] at hv
        have := hv.1.2
        rw [hdv] at this
        exact this
      exact (titleVersionB_no_sep hva c hc).1
  have hsplit_rest :
      ((d.document_version.getD "NV".toList) ++ '_' ::
        (strftimeYmd d.gueltig_ab ++ '_' ::
          (strftimeYmd d.gueltig_bis ++ '_' ::
            (strftimeYmd ((d.publication_date).getD d.gueltig_ab) ++ '_' ::
              (d.flagChars ++ '_' :: natToChars d.fileId))))).splitOn '_' =
        [d.document_version.getD "NV".toList,
         strftimeYmd d.gueltig_ab, strftimeYmd d.gueltig_bis,
         strftimeYmd ((d.publication_date).getD d.gueltig_ab),
         d.flagChars, natToChars d.fileId] := by
    rw [splitOn_sep_first hver, splitOn_sep_first (strftimeYmd_not_mem_sep _),
      splitOn_sep_first (strftimeYmd_not_mem_sep _),
      splitOn_sep_first (strftimeYmd_not_mem_sep _),
      splitOn_sep_first (flagChars_not_mem_sep d),
      splitOn_single (natToChars_not_mem_sep _)]
  cases hef : d.edifact_format with
  | none =>
    simp only [List.nil_append]
    rw [splitOn_sep_first hkt, hsplit_rest]
    rfl
  | some f =>
    have hf : '_' ∉ f := by
      simp only [validDocumentB, Bool.and_eq_true] at hv
      have := hv.2
      rw [hef] at this
      simp only [Bool.and_eq_true] at this
      exact notMem_of_forall_ne fun c hc => (upper_no_sep this.2 c hc).1
    have hassoc : (f ++ ['_']) ++
        ((d.document_version.getD "NV".toList) ++ '_' ::
          (strftimeYmd d.gueltig_ab ++ '_' ::
            (strftimeYmd d.gueltig_bis ++ '_' ::
              (strftimeYmd ((d.publication_date).getD d.gueltig_ab) ++ '_' ::
                (d.flagChars ++ '_' :: natToChars d.fileId))))) =
        f ++ '_' ::
          ((d.document_version.getD "NV".toList) ++ '_' ::
            (strftimeYmd d.gueltig_ab ++ '_' ::
              (strftimeYmd d.gueltig_bis ++ '_' ::
                (strftimeYmd ((d.publication_date).getD d.gueltig_ab) ++ '_' ::
                  (d.flagChars ++ '_' :: natToChars d.fileId))))) := by
      simp [List.append_assoc]
    rw [hassoc, splitOn_sep_first hkt, splitOn_sep_first hf, hsplit_rest]
    rfl

theorem kfa_some (filename : List Char) (parts : List (List Char)) (x : List Char)
    (h7 : negIdx parts 7 = some x) :
    ∃ kea : Option FileKind × Option (List Char) × Option (List Char),
      (if "MIG_".toList.isPrefixOf filename ∨ "AHB_".toList.isPrefixOf filename then
        (negIdx parts 7).map fun fmtStr =>
          ((if "MIG_".toList.isPrefixOf filename then some FileKind.MIG else some FileKind.AHB),
            (if fmtStr ∈ knownEdifactFormats then some fmtStr else none),
            (none : Option (List Char)))
      else if "EBD_".toList.isPrefixOf filename then some (some FileKind.EBD, none, none)
      else if "xsd".toList.isSuffixOf filename then some (some FileKind.XSD, none, none)
      else if "xlsx".toList.isSuffixOf filename then some (some FileKind.EXCEL, none, none)
      else some (none, none, some parts.headI)) = some kea := by
  split
  · rw [h7]
    exact ⟨_, rfl⟩
  · split
    · exact ⟨_, rfl⟩
    · split
      · exact ⟨_, rfl⟩
      · split
        · exact ⟨_, rfl⟩
        · exact ⟨_, rfl⟩

theorem xo_decode (b : Bool) : decide ((xoChar b).toLower = 'x') = b := by
  cases b <;> decide

theorem valid_gueltig_ab {d : Document} (hv : validDocumentB d = true) :
    validDate d.gueltig_ab = true := by
  simp only [validDocumentB, Bool.and_eq_true] at hv
  exact hv.1.1.1.1.1

theorem valid_gueltig_bis {d : Document} (hv : validDocumentB d = true) :
    validDate d.gueltig_bis = true := by
  simp only [validDocumentB, Bool.and_eq_true] at hv
  have h := hv.1.1.1.1.2
  unfold Document.gueltig_bis
  cases hvt : d.validTo with
  | none => decide
  | some vt =>
    rw [hvt] at h
    exact h

theorem valid_publication_date {d : Document} (hv : validDocumentB d = true) :
    validDate ((d.publication_date).getD d.gueltig_ab) = true := by
  have hva := valid_gueltig_ab hv
  simp only [validDocumentB, Bool.and_eq_true] at hv
  have hp := hv.1.1.1.2
  have hs := hv.1.1.2
  unfold Document.publication_date
  cases hpd : d.publicationDate with
  | some p =>
    rw [hpd] at hp
    simpa using hp
  | none =>
    cases hsd : d.standDate with
    | some s =>
      rw [hsd] at hs
      simpa using hs
    | none => simpa using hva

/-- **C1** (amended): for every valid catalog record whose derived version
token has no `G`/`S` prefix (else decoding fails wholesale, see the
counterexample), decoding the encoded filename recovers the record's
`fileId`, its three dates — valid-from, valid-to with open-ended validity
encoded as `99991231`, and the effective publication date — and all four
derived boolean flags exactly. -/
theorem from_filename_roundtrip (d : Document) (fn : List Char)
    (hv : validDocumentB d = true)
    (hpl : ∀ v, d.document_version = some v → plainVersionB v = true)
    (henc : d.get_meaningful_file_name = some fn) :
    ∃ m : DocumentMetadata, DocumentMetadata.from_filename fn = some m ∧
      m.id = d.fileId ∧
      m.valid_from = d.gueltig_ab ∧
      m.valid_until = d.gueltig_bis ∧
      m.publication_date = some ((d.publication_date).getD d.gueltig_ab) ∧
      m.is_error_correction = d.is_error_correction ∧
      m.is_extraordinary_publication = d.is_extraordinary_publication ∧
      m.is_consolidated_reading_version = d.is_consolidated_reading_version ∧
      m.is_informational_reading_version = d.is_informational_reading_version := by
  obtain ⟨ext, hext, hfn⟩ := Option.map_eq_some'.mp henc
  have hnodot := file_extension_no_dot hext
  have hfne : fn =
      (d.kindToken ++ '_' ::
        ((match d.edifact_format with | some f => f ++ ['_'] | none => []) ++
          ((d.document_version.getD "NV".toList) ++ '_' ::
            (strftimeYmd d.gueltig_ab ++ '_' ::
              (strftimeYmd d.gueltig_bis ++ '_' ::
                (strftimeYmd ((d.publication_date).getD d.gueltig_ab) ++ '_' ::
                  (d.flagChars ++ '_' :: natToChars d.fileId))))))) ++ '.' :: ext := by
    rw [← hfn]
    simp [List.append_assoc]
  have hdrop : dropExtPy fn =
      d.kindToken ++ '_' ::
        ((match d.edifact_format with | some f => f ++ ['_'] | none => []) ++
          ((d.document_version.getD "NV".toList) ++ '_' ::
            (strftimeYmd d.gueltig_ab ++ '_' ::
              (strftimeYmd d.gueltig_bis ++ '_' ::
                (strftimeYmd ((d.publication_date).getD d.gueltig_ab) ++ '_' ::
                  (d.flagChars ++ '_' :: natToChars d.fileId)))))) := by
    rw [hfne]
    exact dropExtPy_append hnodot
  have hparts0 := encoded_parts d hv
  have hver_eq : (if (d.document_version.getD "NV".toList) = "NV".toList
      then (none : Option (List Char)) else some (d.document_version.getD "NV".toList)) =
      d.document_version := by
    cases hdv : d.document_version with
    | none => simp
    | some v =>
      have hne : v ≠ "NV".toList := by
        intro he
        have := hpl v hdv
        rw [he, plainVersionB_NV] at this
        cases this
      simp only [Option.getD_some]
      rw [if_neg hne]
  have hguard : (match (if (d.document_version.getD "NV".toList) = "NV".toList
        then (none : Option (List Char)) else some (d.document_version.getD "NV".toList)) with
      | none => some ()
      | some v => if plainVersionB v then some () else none) = some () := by
    rw [hver_eq]
    cases hdv : d.document_version with
    | none => rfl
    | some v => simp [hpl v hdv]
  cases hef : d.edifact_format with
  | none =>
    rw [hef] at hparts0 hdrop
    have hparts : (dropExtPy fn).splitOn '_' =
        [d.kindToken, d.document_version.getD "NV".toList,
         strftimeYmd d.gueltig_ab, strftimeYmd d.gueltig_bis,
         strftimeYmd ((d.publication_date).getD d.gueltig_ab),
         d.flagChars, natToChars d.fileId] := by
      rw [hdrop]
      exact hparts0
    simp only [DocumentMetadata.from_filename, hparts, negIdx_seven, Option.bind_eq_bind,
      Option.some_bind, Option.pure_def, Option.map_some',
      parseNat_natToChars, Document.flagChars,
      strptimeYmd_strftimeYmd (valid_gueltig_ab hv),
      strptimeYmd_strftimeYmd (valid_gueltig_bis hv),
      strptimeYmd_strftimeYmd (valid_publication_date hv),
      hguard]
    by_cases h1 : "MIG_".toList.isPrefixOf fn = true ∨ "AHB_".toList.isPrefixOf fn = true
    · simp only [if_pos h1, Option.some_bind]
      exact ⟨_, rfl, rfl, rfl, rfl, rfl, xo_decode _, xo_decode _, xo_decode _, xo_decode _⟩
    · simp only [if_neg h1]
      by_cases h2 : "EBD_".toList.isPrefixOf fn = true
      · simp only [if_pos h2, Option.some_bind]
        exact ⟨_, rfl, rfl, rfl, rfl, rfl, xo_decode _, xo_decode _, xo_decode _, xo_decode _⟩
      · simp only [if_neg h2]
        by_cases h3 : "xsd".toList.isSuffixOf fn = true
        · simp only [if_pos h3, Option.some_bind]
          exact ⟨_, rfl, rfl, rfl, rfl, rfl, xo_decode _, xo_decode _, xo_decode _, xo_decode _⟩
        · simp only [if_neg h3]
          by_cases h4 : "xlsx".toList.isSuffixOf fn = true
          · simp only [if_pos h4, Option.some_bind]
            exact ⟨_, rfl, rfl, rfl, rfl, rfl, xo_decode _, xo_decode _, xo_decode _, xo_decode _⟩
          · simp only [if_neg h4, Option.some_bind]
            exact ⟨_, rfl, rfl, rfl, rfl, rfl, xo_decode _, xo_decode _, xo_decode _, xo_decode _⟩
  | some f =>
    rw [hef] at hparts0 hdrop
    have hparts : (dropExtPy fn).splitOn '_' =
        [d.kindToken, f, d.document_version.getD "NV".toList,
         strftimeYmd d.gueltig_ab, strftimeYmd d.gueltig_bis,
         strftimeYmd ((d.publication_date).getD d.gueltig_ab),
         d.flagChars, natToChars d.fileId] := by
      rw [hdrop]
      exact hparts0
    simp only [DocumentMetadata.from_filename, hparts, negIdx_eight, Option.bind_eq_bind,
      Option.some_bind, Option.pure_def, Option.map_some',
      parseNat_natToChars, Document.flagChars,
      strptimeYmd_strftimeYmd (valid_gueltig_ab hv),
      strptimeYmd_strftimeYmd (valid_gueltig_bis hv),
      strptimeYmd_strftimeYmd (valid_publication_date hv),
      hguard]
    by_cases h1 : "MIG_".toList.isPrefixOf fn = true ∨ "AHB_".toList.isPrefixOf fn = true
    · simp only [if_pos h1, Option.some_bind]
      exact ⟨_, rfl, rfl, rfl, rfl, rfl, xo_decode _, xo_decode _, xo_decode _, xo_decode _⟩
    · simp only [if_neg h1]
      by_cases h2 : "EBD_".toList.isPrefixOf fn = true
      · simp only [if_pos h2, Option.some_bind]
        exact ⟨_, rfl, rfl, rfl, rfl, rfl, xo_decode _, xo_decode _, xo_decode _, xo_decode _⟩
      · simp only [if_neg h2]
        by_cases h3 : "xsd".toList.isSuffixOf fn = true
        · simp only [if_pos h3, Option.some_bind]
          exact ⟨_, rfl, rfl, rfl, rfl, rfl, xo_decode _, xo_decode _, xo_decode _, xo_decode _⟩
        · simp only [if_neg h3]
          by_cases h4 : "xlsx".toList.isSuffixOf fn = true
          · simp only [if_pos h4, Option.some_bind]
            exact ⟨_, rfl, rfl, rfl, rfl, rfl, xo_decode _, xo_decode _, xo_decode _, xo_decode _⟩
          · simp only [if_neg h4, Option.some_bind]
            exact ⟨_, rfl, rfl, rfl, rfl, rfl, xo_decode _, xo_decode _, xo_decode _, xo_decode _⟩

theorem mapO_mem {α β : Type} {f : α → Option β} :
    ∀ {l : List α} {m : List β}, mapO f l = some m → ∀ b ∈ m, ∃ a ∈ l, f a = some b := by
  intro l
  induction l with
  | nil =>
    intro m hm b hb
    cases hm
    cases hb
  | cons a l ih =>
    intro m hm b hb
    unfold mapO at hm
    cases hfa : f a with
    | none => rw [hfa] at hm; cases hm
    | some b0 =>
      rw [hfa] at hm
      cases hrec : mapO f l with
      | none => rw [hrec] at hm; cases hm
      | some r =>
        rw [hrec] at hm
        cases hm
        rcases List.mem_cons.mp hb with rfl | hb'
        · exact ⟨a, List.mem_cons_self a l, hfa⟩
        · obtain ⟨a', ha', hfa'⟩ := ih hrec b hb'
          exact ⟨a', List.mem_cons_of_mem a ha', hfa'⟩

theorem mapO_mem_of_mem {α β : Type} {f : α → Option β} :
    ∀ {l : List α} {m : List β}, mapO f l = some m →
      ∀ a ∈ l, ∀ b, f a = some b → b ∈ m := by
  intro l
  induction l with
  | nil =>
    intro m hm a ha
    cases ha
  | cons x l ih =>
    intro m hm a ha b hb
    unfold mapO at hm
    cases hfx : f x with
    | none => rw [hfx] at hm; cases hm
    | some b0 =>
      rw [hfx] at hm
      cases hrec : mapO f l with
      | none => rw [hrec] at hm; cases hm
      | some r =>
        rw [hrec] at hm
        cases hm
        rcases List.mem_cons.mp ha with rfl | ha'
        · rw [hfx] at hb
          cases hb
          exact List.mem_cons_self b r
        · exact List.mem_cons_of_mem b0 (ih hrec a ha' b hb)

theorem mapO_eq_none {α β : Type} {f : α → Option β} :
    ∀ {l : List α} {a : α}, a ∈ l → f a = none → mapO f l = none := by
  intro l
  induction l with
  | nil =>
    intro a ha
    cases ha
  | cons x l ih =>
    intro a ha hfa
    unfold mapO
    rcases List.mem_cons.mp ha with rfl | ha'
    · rw [hfa]
    · rw [ih ha' hfa]
      cases f x <;> rfl

theorem mapO_keys {α β γ : Type} {f : α → Option β} {g : α → γ} {h : β → γ}
    (hcomm : ∀ a b, f a = some b → h b = g a) :
    ∀ {l : List α} {m : List β}, mapO f l = some m → m.map h = l.map g := by
  intro l
  induction l with
  | nil =>
    intro m hm
    cases hm
    rfl
  | cons x l ih =>
    intro m hm
    unfold mapO at hm
    cases hfx : f x with
    | none => rw [hfx] at hm; cases hm
    | some b0 =>
      rw [hfx] at hm
      cases hrec : mapO f l with
      | none => rw [hrec] at hm; cases hm
      | some r =>
        rw [hrec] at hm
        cases hm
        simp only [List.map_cons]
        rw [hcomm x b0 hfx, ih hrec]

/-- The stem of an encoded filename, split on `_`, ends in the decimal
`fileId`. -/
theorem stem_last_token {d : Document} {fn : List Char} (hv : validDocumentB d = true)
    (henc : d.get_meaningful_file_name = some fn) :
    ((stemPy fn).splitOn '_').getLastD [] = natToChars d.fileId := by
  obtain ⟨ext, hext, hfn⟩ := Option.map_eq_some'.mp henc
  have hnodot := file_extension_no_dot hext
  have hstem : stemPy fn =
      d.kindToken ++ '_' ::
        ((match d.edifact_format with | some f => f ++ ['_'] | none => []) ++
          ((d.document_version.getD "NV".toList) ++ '_' ::
            (strftimeYmd d.gueltig_ab ++ '_' ::
              (strftimeYmd d.gueltig_bis ++ '_' ::
                (strftimeYmd ((d.publication_date).getD d.gueltig_ab) ++ '_' ::
                  (d.flagChars ++ '_' :: natToChars d.fileId)))))) := by
    have hfne : fn =
        (d.kindToken ++ '_' ::
          ((match d.edifact_format with | some f => f ++ ['_'] | none => []) ++
            ((d.document_version.getD "NV".toList) ++ '_' ::
              (strftimeYmd d.gueltig_ab ++ '_' ::
                (strftimeYmd d.gueltig_bis ++ '_' ::
                  (strftimeYmd ((d.publication_date).getD d.gueltig_ab) ++ '_' ::
                    (d.flagChars ++ '_' :: natToChars d.fileId))))))) ++ '.' :: ext := by
      rw [← hfn]
      simp [List.append_assoc]
    rw [hfne]
    exact stemPy_append hnodot
  rw [hstem, encoded_parts d hv]
  cases d.edifact_format <;> rfl

/-- A python-dict lookup finds the value of a present key when the keys are
distinct. -/
theorem dictLookup_eq_some {m : List (List Char × List Char)} {k v : List Char}
    (hnd : (m.map Prod.fst).Nodup) (hmem : (k, v) ∈ m) : dictLookup m k = some v := by
  unfold dictLookup
  have hmem' : (k, v) ∈ m.reverse := List.mem_reverse.mpr hmem
  have hne : m.reverse.find? (fun p => decide (p.1 = k)) ≠ none := by
    intro hn
    rw [List.find?_eq_none] at hn
    exact (hn _ hmem') (by simp)
  obtain ⟨q, hq⟩ := Option.ne_none_iff_exists'.mp hne
  have hqmem : q ∈ m := List.mem_reverse.mp (List.mem_of_find?_eq_some hq)
  have hqk : q.1 = k := by simpa using List.find?_some hq
  have hinj := List.inj_on_of_nodup_map hnd
  have hqe : q = (k, v) := hinj hqmem hmem (by rw [hqk])
  rw [hq, hqe]
  rfl

/-- A `dictLookup` result comes from an entry of the list. -/
theorem dictLookup_mem {m : List (List Char × List Char)} {k v : List Char}
    (h : dictLookup m k = some v) : (k, v) ∈ m := by
  unfold dictLookup at h
  cases hf : m.reverse.find? (fun p => decide (p.1 = k)) with
  | none => rw [hf] at h; cases h
  | some q =>
    rw [hf] at h
    have hqmem : q ∈ m := List.mem_reverse.mp (List.mem_of_find?_eq_some hf)
    have hqk : q.1 = k := by simpa using List.find?_some hf
    have hqv : q.2 = v := by
      simpa using h
    have : q = (k, v) := by
      cases q
      simp only at hqk hqv
      rw [hqk, hqv]
    rwa [this] at hqmem

theorem file_id_stem_mapping_keys {documents : List Document}
    {mapping : List (List Char × List Char)}
    (hmap : file_id_stem_mapping documents = some mapping) :
    mapping.map Prod.fst = documents.map fun d => natToChars d.fileId := by
  refine mapO_keys ?_ hmap
  intro d p hp
  obtain ⟨fn, -, hpe⟩ := Option.map_eq_some'.mp hp
  rw [← hpe]

/-- The keep condition of `_remove_old_files` holds exactly for files whose
stem coincides with the stem of some catalog record's target filename. -/
theorem keep_file_iff {documents : List Document} {mapping : List (List Char × List Char)}
    (hvd : ∀ d ∈ documents, validDocumentB d = true)
    (hmap : file_id_stem_mapping documents = some mapping)
    (hids : (documents.map Document.fileId).Nodup) (n : List Char) :
    keep_file documents mapping n = true ↔
      ∃ d ∈ documents, ∃ fn, d.get_meaningful_file_name = some fn ∧
        stemPy n = stemPy fn := by
  have hkeys : (mapping.map Prod.fst).Nodup := by
    rw [file_id_stem_mapping_keys hmap]
    have : (documents.map fun d => natToChars d.fileId) =
        (documents.map Document.fileId).map natToChars := by
      rw [List.map_map]
      rfl
    rw [this]
    exact hids.map fun _ _ h => natToChars_injective h
  constructor
  · intro hk
    unfold keep_file at hk
    simp only [Bool.and_eq_true, decide_eq_true_eq] at hk
    obtain ⟨-, hlook⟩ := hk
    have hqmem := dictLookup_mem hlook
    obtain ⟨d, hd, hfd⟩ := mapO_mem hmap _ hqmem
    obtain ⟨fn, hfn, hpe⟩ := Option.map_eq_some'.mp hfd
    refine ⟨d, hd, fn, hfn, ?_⟩
    have := congrArg Prod.snd hpe
    simpa using this.symm
  · rintro ⟨d, hd, fn, hfn, hstem⟩
    unfold keep_file
    simp only [Bool.and_eq_true, decide_eq_true_eq]
    have hlast : (((stemPy n).splitOn '_').getLastD []) = natToChars d.fileId := by
      rw [hstem]
      exact stem_last_token (hvd d hd) hfn
    constructor
    · rw [hlast]
      exact List.mem_map_of_mem (fun d => natToChars d.fileId) hd
    · rw [hlast, hstem]
      exact dictLookup_eq_some hkeys
        (mapO_mem_of_mem hmap d hd _ (by rw [hfn]; rfl))

/-! ## Claim theorems -/

/-- **C6** (amended): for every pair of PDF files that both parse, the change
detector returns `false` when neither reports itself encrypted and the
document metadata coincide, and returns `true` whenever either file reports
itself encrypted (the original claim's first conjunct must except encrypted
pairs: an encrypted pair with identical metadata yields `true`). -/
theorem have_different_metadata_spec (pn po : PdfFile) :
    ((pn.is_encrypted = false ∧ po.is_encrypted = false ∧ pn.metadata = po.metadata) →
      _have_different_metadata (some pn) (some po) = some false)
    ∧ ((pn.is_encrypted = true ∨ po.is_encrypted = true) →
      _have_different_metadata (some pn) (some po) = some true) := by
  constructor
  · rintro ⟨h1, h2, h3⟩
    simp [_have_different_metadata, h1, h2, h3]
  · intro h
    cases he : pn.is_encrypted with
    | true => simp [_have_different_metadata, he]
    | false =>
      rcases h with h | h
      · rw [he] at h
        cases h
      · simp [_have_different_metadata, he, h]

/-- Witness for C6: an unencrypted pair with equal metadata does not differ;
a pair whose new file is encrypted differs. -/
theorem have_different_metadata_spec_witness :
    _have_different_metadata (some ⟨false, [("a".toList, "b".toList)]⟩)
        (some ⟨false, [("a".toList, "b".toList)]⟩) = some false ∧
      _have_different_metadata (some ⟨true, []⟩) (some ⟨false, []⟩) = some true :=
  ⟨(have_different_metadata_spec _ _).1 ⟨rfl, rfl, rfl⟩,
    (have_different_metadata_spec _ _).2 (Or.inl rfl)⟩

/-- Counterexample to C6 as stated: two files that both parse and have
identical document metadata, yet the detector returns `true` (not `false`)
because both are encrypted. -/
theorem encrypted_equal_metadata_counterexample :
    (⟨true, []⟩ : PdfFile).metadata = (⟨true, []⟩ : PdfFile).metadata ∧
      _have_different_metadata (some ⟨true, []⟩) (some ⟨true, []⟩) = some true := by
  exact ⟨rfl, rfl⟩

/-- **C7** (amended): for a download whose target name is not a `.pdf`, an
existing stored file of the same name is *unconditionally* replaced — the
stored and downloaded bytes are never compared. -/
theorem non_pdf_always_replaced (new_content old_content : List Nat)
    (metadata_differ : Bool) :
    download_document_per_fv_replace true false metadata_differ new_content
      (some old_content) = StoreAction.replaceWithNew := rfl

/-- Counterexample to C7 as stated: a byte-identical non-PDF download, where
byte-for-byte comparison would keep the stored file, but the code replaces
it. -/
theorem byte_identical_non_pdf_counterexample :
    download_document_per_fv_replace true false false [1, 2, 3] (some [1, 2, 3]) =
        StoreAction.replaceWithNew ∧
      spec_byte_comparison_decision [1, 2, 3] (some [1, 2, 3]) =
        StoreAction.keepExisting ∧
      StoreAction.replaceWithNew ≠ StoreAction.keepExisting := by
  refine ⟨rfl, ?_, by decide⟩
  simp [spec_byte_comparison_decision]

/-- **C8**: the non-umlaut keyword in `is_extraordinary_publication` is
misspelled `"ausserordenlich"` (no `t`), so a title containing the correctly
spelled `"ausserordentlich"` — which the claim and the method's own
docstring cover — does not set the derived flag. -/
theorem extraordinary_keyword_typo_eval :
    c8_document.isExtraordinaryPublication = false ∧
      containsSub "ausserordentlich".toList (lowerStr c8_document.title) = true ∧
      Document.is_extraordinary_publication c8_document = false := by
  refine ⟨rfl, by decide, by decide⟩

/-- **C10**: every character of `alternative_file_kind` is a lower-case
ASCII letter; in particular the fallback kind token never contains the `_`
field separator, a path separator, or whitespace. -/
theorem alternative_file_kind_sanitized (title : List Char) (c : Char)
    (hc : c ∈ alternative_file_kind title) :
    c.isLower = true ∧ c ≠ '_' ∧ c ≠ '/' ∧ isPySpace c = false := by
  have hl := alternative_file_kind_isLower c hc
  have hn := alternative_file_kind_no_sep c hc
  refine ⟨hl, hn.1, hn.2.2, ?_⟩
  have hb := isLower_toNat hl
  unfold isPySpace
  simp only [decide_eq_false_iff_not]
  rintro (rfl | rfl | rfl | rfl | rfl | rfl) <;> exact absurd hb (by decide)

/-- Witness for C10 at the title "MSCONS AHB 3.1" (fallback token
`msconsahb`). -/
theorem alternative_file_kind_sanitized_witness :
    'm' ∈ alternative_file_kind "MSCONS AHB 3.1".toList ∧
      ('m'.isLower = true ∧ 'm' ≠ '_' ∧ 'm' ≠ '/' ∧ isPySpace 'm' = false) :=
  ⟨by decide, alternative_file_kind_sanitized "MSCONS AHB 3.1".toList 'm' (by decide)⟩

/-! ## C2 / C3: properties of the version-range resolvers -/

theorem versionsList_nodup : versionsList.Nodup := by decide

theorem fv_le_refl (v : EdifactFormatVersion) : v ≤ v := by
  rw [EdifactFormatVersion.le_def]

theorem fv_le_trans {a b c : EdifactFormatVersion} (h1 : a ≤ b) (h2 : b ≤ c) : a ≤ c := by
  rw [EdifactFormatVersion.le_def] at *
  omega

theorem fv_le_antisymm {a b : EdifactFormatVersion} (h1 : a ≤ b) (h2 : b ≤ a) : a = b := by
  rw [EdifactFormatVersion.le_def] at *
  exact EdifactFormatVersion.toIdx_inj (by omega)

theorem filter_eq_singleton {α : Type} [DecidableEq α] :
    ∀ {l : List α}, l.Nodup → ∀ {x : α}, x ∈ l →
      l.filter (fun y => decide (y = x)) = [x] := by
  intro l
  induction l with
  | nil =>
    intro _ x hx
    cases hx
  | cons a l ih =>
    intro hnd x hx
    have hal : a ∉ l := (List.nodup_cons.mp hnd).1
    have hndl : l.Nodup := (List.nodup_cons.mp hnd).2
    rcases List.mem_cons.mp hx with rfl | hxl
    · have hfl : l.filter (fun y => decide (y = x)) = [] := by
        rw [List.filter_eq_nil_iff]
        intro b hb
        simp only [decide_eq_true_eq]
        rintro rfl
        exact hal hb
      simp [List.filter_cons, hfl]
    · have hax : a ≠ x := by
        rintro rfl
        exact hal hxl
      simp [List.filter_cons, hax, ih hndl hxl]

theorem mem_filter_interval {lo hi v : EdifactFormatVersion} :
    v ∈ versionsList.filter (fun u => decide (lo ≤ u) && decide (u ≤ hi)) ↔
      lo ≤ v ∧ v ≤ hi := by
  rw [List.mem_filter]
  simp [mem_versionsList]

theorem interval_filter_props (lo hi : EdifactFormatVersion) (hle : lo ≤ hi) :
    versionsList.filter (fun v => decide (lo ≤ v) && decide (v ≤ hi)) ≠ [] ∧
    List.Sorted (· < ·) (versionsList.filter (fun v => decide (lo ≤ v) && decide (v ≤ hi))) ∧
    (∀ a b c : EdifactFormatVersion,
      a ∈ versionsList.filter (fun v => decide (lo ≤ v) && decide (v ≤ hi)) →
      c ∈ versionsList.filter (fun v => decide (lo ≤ v) && decide (v ≤ hi)) →
      a ≤ b → b ≤ c →
      b ∈ versionsList.filter (fun v => decide (lo ≤ v) && decide (v ≤ hi))) := by
  refine ⟨?_, ?_, ?_⟩
  · exact List.ne_nil_of_mem (mem_filter_interval.mpr ⟨fv_le_refl lo, hle⟩)
  · exact List.Pairwise.filter _ versionsList_sorted
  · intro a b c ha hc hab hbc
    have ha' := mem_filter_interval.mp ha
    have hc' := mem_filter_interval.mp hc
    exact mem_filter_interval.mpr ⟨fv_le_trans ha'.1 hab, fv_le_trans hbc hc'.2⟩

theorem filter_interval_self (x : EdifactFormatVersion) :
    versionsList.filter (fun v => decide (x ≤ v) && decide (v ≤ x)) = [x] := by
  have hcong : ∀ v ∈ versionsList,
      (decide (x ≤ v) && decide (v ≤ x)) = decide (v = x) := by
    intro v _
    by_cases hv : v = x
    · subst hv
      simp [fv_le_refl]
    · have : ¬(x ≤ v ∧ v ≤ x) := by
        rintro ⟨h1, h2⟩
        exact hv (fv_le_antisymm h2 h1)
      by_cases h1 : x ≤ v
      · have h2 : ¬ v ≤ x := fun h2 => this ⟨h1, h2⟩
        simp [h1, h2, hv]
      · simp [h1, hv]
  rw [List.filter_congr hcong]
  exact filter_eq_singleton versionsList_nodup (mem_versionsList x)

/-- **C3**: `_get_valid_format_versions` always returns a non-empty,
ascending, contiguous (convex) sequence of format versions, and for the
defective case `valid_to <= valid_from` it returns exactly the single bucket
of `valid_from` without raising. -/
theorem get_valid_format_versions_range (valid_from : Date) (valid_to : Option Date) :
    _get_valid_format_versions valid_from valid_to ≠ [] ∧
    List.Sorted (· < ·) (_get_valid_format_versions valid_from valid_to) ∧
    (∀ a b c : EdifactFormatVersion,
      a ∈ _get_valid_format_versions valid_from valid_to →
      c ∈ _get_valid_format_versions valid_from valid_to →
      a ≤ b → b ≤ c → b ∈ _get_valid_format_versions valid_from valid_to) ∧
    (∀ vt, valid_to = some vt → dateLe vt valid_from = true →
      _get_valid_format_versions valid_from valid_to =
        [get_edifact_format_version valid_from]) := by
  cases valid_to with
  | none =>
    have hform : _get_valid_format_versions valid_from none =
        versionsList.filter (fun v =>
          decide (get_edifact_format_version valid_from ≤ v) &&
            decide (v ≤ maximumFormatVersion)) := rfl
    have hp := interval_filter_props (get_edifact_format_version valid_from)
      maximumFormatVersion (le_maximumFormatVersion _)
    rw [hform]
    exact ⟨hp.1, hp.2.1, hp.2.2, fun vt hvt => by cases hvt⟩
  | some vt =>
    by_cases hd : dateLe vt valid_from = true
    · have hform : _get_valid_format_versions valid_from (some vt) =
          versionsList.filter (fun v =>
            decide (get_edifact_format_version valid_from ≤ v) &&
              decide (v ≤ get_edifact_format_version valid_from)) := by
        simp only [_get_valid_format_versions]
        exact List.filter_congr fun fv _ => by simp [hd]
      rw [hform, filter_interval_self]
      refine ⟨by simp, by simp, ?_, fun vt' hvt' _ => rfl⟩
      intro a b c ha hc hab hbc
      simp only [List.mem_singleton] at ha hc ⊢
      subst ha
      subst hc
      exact fv_le_antisymm hbc hab
    · have hform : _get_valid_format_versions valid_from (some vt) =
          versionsList.filter (fun v =>
            decide (get_edifact_format_version valid_from ≤ v) &&
              decide (v ≤ get_edifact_format_version vt)) := by
        simp only [_get_valid_format_versions]
        exact List.filter_congr fun fv _ => by simp [hd]
      have hfromto : dateLe valid_from vt = true := by
        rcases dateLe_total vt valid_from with h | h
        · exact absurd h hd
        · exact h
      have hp := interval_filter_props (get_edifact_format_version valid_from)
        (get_edifact_format_version vt) (get_edifact_format_version_mono hfromto)
      rw [hform]
      refine ⟨hp.1, hp.2.1, hp.2.2, ?_⟩
      intro vt' hvt' hd'
      cases hvt'
      exact absurd hd' hd

/-- Witness for C3: the defective interval `2021-09-30 .. 2021-09-29`
resolves to exactly `[FV2104]`, and a non-empty result for an open-ended
document. -/
theorem get_valid_format_versions_range_witness :
    _get_valid_format_versions ⟨2021, 9, 30⟩ (some ⟨2021, 9, 29⟩) =
        [EdifactFormatVersion.FV2104] ∧
      _get_valid_format_versions ⟨2023, 10, 30⟩ none ≠ [] :=
  ⟨(get_valid_format_versions_range ⟨2021, 9, 30⟩ (some ⟨2021, 9, 29⟩)).2.2.2
      ⟨2021, 9, 29⟩ rfl (by decide),
    (get_valid_format_versions_range ⟨2023, 10, 30⟩ none).1⟩

/-- **C2** (amended): with `valid_to` absent, `_get_valid_format_versions`
returns *every* bucket from the bucket of `valid_from` through the maximum
defined format version — it is not clamped to the bucket after the current
one; only the legacy `get_edifact_format_version_range_from_filename` clamps
its end to the "next" format version of the resolution date. -/
theorem resolver_clamp_amended :
    (∀ valid_from : Date, _get_valid_format_versions valid_from none =
      versionsList.filter (fun v =>
        decide (get_edifact_format_version valid_from ≤ v)))
    ∧ (∀ (p : List Char) (today : Date) (r : List EdifactFormatVersion)
        (next : EdifactFormatVersion),
        get_next_format_version today = some next →
        get_edifact_format_version_range_from_filename p today = some r →
        ∀ v ∈ r, v ≤ next) := by
  constructor
  · intro valid_from
    apply List.filter_congr
    intro v _
    have : decide (v ≤ maximumFormatVersion) = true := by
      simp [le_maximumFormatVersion v]
    rw [this, Bool.and_true]
  · intro p today r next hnext hr v hv
    unfold get_edifact_format_version_range_from_filename at hr
    simp only [Option.bind_eq_bind, Option.bind_eq_some] at hr
    obtain ⟨pub, hpub, vto, hvto, next', hnext', hr'⟩ := hr
    rw [hnext] at hnext'
    cases hnext'
    cases hr'
    have hb := mem_pySlice_versionsList hv
    rw [EdifactFormatVersion.le_def]
    have hend : EdifactFormatVersion.toIdx
        (if next < get_edifact_format_version vto then next
          else get_edifact_format_version vto) ≤ EdifactFormatVersion.toIdx next := by
      split
      · exact Nat.le_refl _
      · rename_i hlt
        have hlt' : ¬ EdifactFormatVersion.toIdx next <
            EdifactFormatVersion.toIdx (get_edifact_format_version vto) := hlt
        omega
    omega

/-- Witness for C2: the spec's own scenario — the legacy resolver on
`IFTSTAMIG2.0e_20240930_20231001.pdf` resolved on 2023-11-01 (current
FV2310, next FV2404) yields `[FV2310, FV2404]`, whose first bucket is
`≤` FV2404; and the filter form of the open-ended case at
`valid_from = 2023-10-30`. -/
theorem resolver_clamp_amended_witness :
    (_get_valid_format_versions ⟨2023, 10, 30⟩ none =
      versionsList.filter (fun v =>
        decide (get_edifact_format_version ⟨2023, 10, 30⟩ ≤ v)))
    ∧ get_next_format_version ⟨2023, 11, 1⟩ = some EdifactFormatVersion.FV2404
    ∧ get_edifact_format_version_range_from_filename
        "IFTSTAMIG2.0e_20240930_20231001.pdf".toList ⟨2023, 11, 1⟩ =
          some [EdifactFormatVersion.FV2310, EdifactFormatVersion.FV2404]
    ∧ EdifactFormatVersion.FV2310 ≤ EdifactFormatVersion.FV2404 :=
  ⟨resolver_clamp_amended.1 ⟨2023, 10, 30⟩, by decide, by decide,
    resolver_clamp_amended.2 "IFTSTAMIG2.0e_20240930_20231001.pdf".toList
      ⟨2023, 11, 1⟩ [EdifactFormatVersion.FV2310, EdifactFormatVersion.FV2404]
      EdifactFormatVersion.FV2404 (by decide) (by decide)
      EdifactFormatVersion.FV2310 (by decide)⟩

/-- Counterexample to C2 as stated: an open-ended document resolved on
2024-10-05 (current FV2410, next FV2504) is filed under FV2510 — more than
one bucket beyond the current "next" bucket. -/
theorem resolver_unclamped_counterexample :
    EdifactFormatVersion.FV2510 ∈ _get_valid_format_versions ⟨2024, 10, 5⟩ none ∧
      get_next_format_version ⟨2024, 10, 5⟩ = some EdifactFormatVersion.FV2504 ∧
      ¬ (EdifactFormatVersion.FV2510 ≤ EdifactFormatVersion.FV2504) := by
  refine ⟨by decide, by decide, by decide⟩

/-! ## C4 / C5: eviction and whole-run failure -/

theorem mapO_isSome {α β : Type} {f : α → Option β} :
    ∀ {l : List α}, (∀ a ∈ l, (f a).isSome = true) → ∃ m, mapO f l = some m := by
  intro l
  induction l with
  | nil => exact fun _ => ⟨[], rfl⟩
  | cons x l ih =>
    intro h
    obtain ⟨b, hb⟩ := Option.isSome_iff_exists.mp (h x (List.mem_cons_self x l))
    obtain ⟨m, hm⟩ := ih fun a ha => h a (List.mem_cons_of_mem x ha)
    exact ⟨b :: m, by unfold mapO; rw [hb, hm]⟩

/-- **C4** (amended): the evict phase keeps exactly those files whose stem
(name without the final extension) equals the stem of some catalog record's
freshly computed target filename, and removes all others; every file whose
full name is in the desired set is kept, and in a `mirror` run the eviction
event comes strictly after all download events.  (The claim's "removes
exactly `E \\ D`" fails: the comparison is by stem, so a stale file that
differs from a desired one only in its extension survives, as does a file
matching a non-downloadable record.) -/
theorem remove_old_files_stem_eviction (documents : List Document)
    (existing : List (List Char))
    (hvd : ∀ d ∈ documents, validDocumentB d = true)
    (hok : ∀ d ∈ documents, (d.get_meaningful_file_name).isSome = true)
    (hids : (documents.map Document.fileId).Nodup) :
    ∃ removed, _remove_old_files documents existing = some removed ∧
      (∀ n ∈ existing, (n ∈ removed ↔
        ¬ ∃ d ∈ documents, ∃ fn, d.get_meaningful_file_name = some fn ∧
          stemPy n = stemPy fn)) ∧
      (∀ n ∈ existing, n ∈ desired_file_names documents → n ∉ removed) ∧
      (∀ tr, mirror documents existing = some tr →
        tr.getLast? = some (MirrorEvent.evict removed) ∧
        ∀ e ∈ tr.dropLast, ∃ fv fn, e = MirrorEvent.download fv fn) := by
  obtain ⟨mapping, hmapping⟩ : ∃ m, file_id_stem_mapping documents = some m := by
    apply mapO_isSome
    intro d hd
    obtain ⟨fn, hfn⟩ := Option.isSome_iff_exists.mp (hok d hd)
    rw [hfn]
    rfl
  have hrof : _remove_old_files documents existing =
      some (existing.filter fun n => ! keep_file documents mapping n) := by
    unfold _remove_old_files
    rw [hmapping]
    rfl
  refine ⟨_, hrof, ?_, ?_, ?_⟩
  · intro n hn
    constructor
    · intro hmem hex
      have := (List.mem_filter.mp hmem).2
      rw [Bool.not_eq_eq_eq_not, Bool.not_true] at this
      rw [(keep_file_iff hvd hmapping hids n).mpr hex] at this
      cases this
    · intro hnot
      refine List.mem_filter.mpr ⟨hn, ?_⟩
      rw [Bool.not_eq_eq_eq_not, Bool.not_true]
      cases hk : keep_file documents mapping n with
      | false => rfl
      | true => exact absurd ((keep_file_iff hvd hmapping hids n).mp hk) hnot
  · intro n hn hdes hmem
    obtain ⟨d, hdf, hfn⟩ := List.mem_filterMap.mp hdes
    have hd : d ∈ documents := List.mem_of_mem_filter hdf
    have := (List.mem_filter.mp hmem).2
    rw [Bool.not_eq_eq_eq_not, Bool.not_true,
      (keep_file_iff hvd hmapping hids n).mpr ⟨d, hd, n, hfn, rfl⟩] at this
    cases this
  · intro tr htr
    unfold mirror at htr
    obtain ⟨devs, hdevs⟩ : ∃ m, mapO download_document_for_all_fv
        (documents.filter fun d => d.isFree) = some m := by
      apply mapO_isSome
      intro d hd
      obtain ⟨fn, hfn⟩ := Option.isSome_iff_exists.mp
        (hok d (List.mem_of_mem_filter hd))
      unfold download_document_for_all_fv
      rw [hfn]
      rfl
    rw [hdevs, hrof] at htr
    simp only [Option.bind_eq_bind, Option.some_bind] at htr
    cases htr
    constructor
    · exact List.getLast?_concat _
    · intro e he
      rw [List.dropLast_concat] at he
      obtain ⟨evl, hevl, hein⟩ := List.mem_flatten.mp he
      obtain ⟨d, -, hfd⟩ := mapO_mem hdevs _ hevl
      obtain ⟨fn, -, hevl'⟩ := Option.map_eq_some'.mp hfd
      rw [← hevl'] at hein
      obtain ⟨fv, -, hev⟩ := List.mem_map.mp hein
      exact ⟨fv, fn, hev.symm⟩

/-- Counterexample to C4 as stated: `c4_stale_name` is in the existing set
and not in the desired set (`E \\ D`), yet the evict phase removes nothing,
because only stems are compared. -/
theorem remove_old_files_extension_counterexample :
    validDocumentB c4_document = true ∧
      c4_document.isFree = true ∧
      _remove_old_files [c4_document] [c4_stale_name] = some [] ∧
      c4_stale_name ∉ desired_file_names [c4_document] := by
  refine ⟨by decide, rfl, by decide, by decide⟩

/-- Witness for C4 at a one-record catalog: the desired file itself is kept
and a garbage file is removed. -/
theorem remove_old_files_stem_eviction_witness :
    (∀ d ∈ [c4_document], validDocumentB d = true) ∧
      ∃ removed, _remove_old_files [c4_document]
          ["EXCEL_NV_20240401_20250401_20240401_oooo_42.xlsx".toList,
           "garbage_1.pdf".toList] = some removed ∧
        "EXCEL_NV_20240401_20250401_20240401_oooo_42.xlsx".toList ∉ removed ∧
        "garbage_1.pdf".toList ∈ removed := by
  constructor
  · intro d hd
    rw [List.mem_singleton.mp hd]
    decide
  · obtain ⟨removed, hrem, hiff, hkeep, -⟩ :=
      remove_old_files_stem_eviction [c4_document]
        ["EXCEL_NV_20240401_20250401_20240401_oooo_42.xlsx".toList,
         "garbage_1.pdf".toList]
        (by intro d hd; rw [List.mem_singleton.mp hd]; decide)
        (by intro d hd; rw [List.mem_singleton.mp hd]; decide)
        (by decide)
    refine ⟨removed, hrem, ?_, ?_⟩
    · apply hkeep _ (by decide)
      decide
    · rw [hiff _ (by decide)]
      rintro ⟨d, hd, fn, hfn, hstem⟩
      rw [List.mem_singleton.mp hd] at hfn
      have : fn = "EXCEL_NV_20240401_20250401_20240401_oooo_42.xlsx".toList := by
        have : c4_document.get_meaningful_file_name =
            some "EXCEL_NV_20240401_20250401_20240401_oooo_42.xlsx".toList := by decide
        rw [this] at hfn
        exact (Option.some_inj.mp hfn).symm
      rw [this] at hstem
      revert hstem
      decide

/-- **C5** (amended): an unsupported `fileType` makes `file_extension`
raise (`NotImplementedError`), and the exception is *not* contained to the
record: it is uncaught in `mirror`, so one such downloadable record aborts
the entire run — no download list and no eviction are produced. -/
theorem mirror_aborts_on_unknown_file_type (documents : List Document)
    (existing : List (List Char))
    (h : ∃ d ∈ documents, d.isFree = true ∧ d.file_extension = none) :
    mirror documents existing = none := by
  obtain ⟨d, hd, hfree, hext⟩ := h
  have hdf : d ∈ documents.filter (fun d => d.isFree) :=
    List.mem_filter.mpr ⟨hd, hfree⟩
  have hnone : download_document_for_all_fv d = none := by
    unfold download_document_for_all_fv Document.get_meaningful_file_name
    rw [hext]
    rfl
  unfold mirror
  rw [mapO_eq_none hdf hnone]
  rfl

/-- Witness for C5. -/
theorem mirror_aborts_on_unknown_file_type_witness :
    (∃ d ∈ [c5_bad_document], d.isFree = true ∧ d.file_extension = none) ∧
      mirror [c5_bad_document] [] = none :=
  ⟨⟨c5_bad_document, by decide, rfl, by decide⟩,
    mirror_aborts_on_unknown_file_type [c5_bad_document] []
      ⟨c5_bad_document, by decide, rfl, by decide⟩⟩

/-- Counterexample to C5 as stated: one record with an unknown `fileType`
in an otherwise healthy catalog, and the whole `mirror` run fails instead of
skipping that record and continuing. -/
theorem mirror_unknown_file_type_counterexample :
    c5_bad_document.file_extension = none ∧
      c5_bad_document.isFree = true ∧
      validDocumentB c5_good_document = true ∧
      c5_good_document.isFree = true ∧
      (c5_good_document.get_meaningful_file_name).isSome = true ∧
      mirror [c5_good_document, c5_bad_document] [] = none := by
  refine ⟨by decide, rfl, by decide, rfl, by decide, by decide⟩

/-! ## C9: path-separator guard -/

/-- **C9**: composed with the path placer `_get_file_path`, encoding fails
with the invalid-filename (`ValueError`: "file names must not contain
slashes") error whenever any encoded field carries the path separator —
the date, flag, id and extension fields provably never do, so the fallible
fields are the kind, format and version tokens — and for every valid record
no field contains a path separator and the produced filename is
slash-free. -/
theorem get_file_path_slash_guard (d : Document) (root_dir fn : List Char)
    (henc : d.get_meaningful_file_name = some fn) :
    ((('/' ∈ d.kindToken) ∨ (∃ f, d.edifact_format = some f ∧ '/' ∈ f) ∨
        (∃ v, d.document_version = some v ∧ '/' ∈ v)) →
      _get_file_path root_dir fn =
        Except.error "file names must not contain slashes".toList)
    ∧ (validDocumentB d = true → '/' ∉ fn) := by
  obtain ⟨ext, hext, hfn⟩ := Option.map_eq_some'.mp henc
  constructor
  · intro hbad
    have hmem : '/' ∈ fn := by
      rw [← hfn]
      simp only [List.mem_append, List.mem_cons]
      rcases hbad with h | ⟨f, hf, h⟩ | ⟨v, hv, h⟩
      · exact Or.inl h
      · rw [hf]
        simp only [List.mem_append, List.mem_singleton]
        tauto
      · rw [hv]
        simp only [Option.getD_some, List.mem_append, List.mem_cons]
        tauto
    unfold _get_file_path
    rw [if_pos hmem]
  · intro hv hmem
    rw [← hfn] at hmem
    simp only [List.mem_append, List.mem_cons] at hmem
    have hnotkind : '/' ∉ d.kindToken := fun h => (kindToken_no_sep '/' h).2.2 rfl
    have hnotus : ('/' : Char) ≠ '_' := by decide
    have hnotdot : ('/' : Char) ≠ '.' := by decide
    have hnotdate : ∀ dt : Date, '/' ∉ strftimeYmd dt := fun dt h =>
      (digit_ne_sep (strftimeYmd_all_digits _ h)).2 rfl
    have hnotid : '/' ∉ natToChars d.fileId := fun h =>
      (digit_ne_sep (natToChars_all_digits _ _ h)).2 rfl
    have hnotflags : '/' ∉ d.flagChars := by
      intro h
      simp only [Document.flagChars, List.mem_cons, List.not_mem_nil, or_false] at h
      rcases h with h | h | h | h <;> exact (xoChar_ne _).2.1 h.symm
    have hnotfmt : '/' ∉ (match d.edifact_format with
        | some f => f ++ ['_'] | none => ([] : List Char)) := by
      simp only [validDocumentB, Bool.and_eq_true] at hv
      have hf := hv.2
      cases hef : d.edifact_format with
      | none => simp
      | some f =>
        rw [hef] at hf
        simp only [Bool.and_eq_true] at hf
        intro h
        rcases List.mem_append.mp h with h | h
        · exact (upper_no_sep hf.2 '/' h).2 rfl
        · rw [List.mem_singleton] at h
          exact hnotus h
    have hnotver : '/' ∉ d.document_version.getD "NV".toList := by
      simp only [validDocumentB, Bool.and_eq_true] at hv
      have hvv := hv.1.2
      cases hdv : d.document_version with
      | none => decide
      | some v =>
        rw [hdv] at hvv
        simp only [Option.getD_some]
        exact fun h => (titleVersionB_no_sep hvv '/' h).2 rfl
    have hnotext : '/' ∉ ext := by
      rcases file_extension_shape hext with rfl | rfl | rfl | rfl | rfl <;> decide
    rcases hmem with h | h | h | h | h | h | h | h | h | h | h | h | h | h | h | h
    · exact hnotkind h
    · exact hnotus h
    · exact hnotfmt h
    · exact hnotver h
    · exact hnotus h
    · exact hnotdate _ h
    · exact hnotus h
    · exact hnotdate _ h
    · exact hnotus h
    · exact hnotdate _ h
    · exact hnotus h
    · exact hnotflags h
    · exact hnotus h
    · exact hnotid h
    · exact hnotdot h
    · exact hnotext h

/-- Witness for C9: the slashed-field record makes `_get_file_path` raise
the slash `ValueError`; the healthy record `c5_good_document` yields a
slash-free filename. -/
theorem get_file_path_slash_guard_witness :
    (∃ fn, c9_document.get_meaningful_file_name = some fn ∧
      _get_file_path "root".toList fn =
        Except.error "file names must not contain slashes".toList) ∧
    (∃ fn, c5_good_document.get_meaningful_file_name = some fn ∧ '/' ∉ fn) := by
  constructor
  · refine ⟨"gooddocument_1/2_20240101_99991231_20240101_oooo_5.pdf".toList, by decide, ?_⟩
    exact (get_file_path_slash_guard c9_document "root".toList _ (by decide)).1
      (Or.inr (Or.inr ⟨"1/2".toList, rfl, by decide⟩))
  · refine ⟨"gooddocument_NV_20240101_99991231_20240101_oooo_100.pdf".toList, by decide, ?_⟩
    exact (get_file_path_slash_guard c5_good_document "root".toList _ (by decide)).2
      (by decide)

/-- Witness for C1 at the spec's scenario record. -/
theorem from_filename_roundtrip_witness :
    validDocumentB c1_document = true ∧
      c1_document.get_meaningful_file_name =
        some "MIG_IFTSTA_2.0e_20231001_20240930_20231001_oooo_42.pdf".toList ∧
      ∃ m : DocumentMetadata,
        DocumentMetadata.from_filename
            "MIG_IFTSTA_2.0e_20231001_20240930_20231001_oooo_42.pdf".toList = some m ∧
          m.id = c1_document.fileId ∧
          m.valid_from = c1_document.gueltig_ab ∧
          m.valid_until = c1_document.gueltig_bis ∧
          m.publication_date =
            some ((c1_document.publication_date).getD c1_document.gueltig_ab) ∧
          m.is_error_correction = c1_document.is_error_correction ∧
          m.is_extraordinary_publication = c1_document.is_extraordinary_publication ∧
          m.is_consolidated_reading_version = c1_document.is_consolidated_reading_version ∧
          m.is_informational_reading_version = c1_document.is_informational_reading_version :=
  ⟨by decide, by decide,
    from_filename_roundtrip c1_document
      "MIG_IFTSTA_2.0e_20231001_20240930_20231001_oooo_42.pdf".toList
      (by decide)
      (fun v hv => by cases hv; decide)
      (by decide)⟩

/-- Counterexample to C1 as stated: a valid catalog record whose derived
version is `S1.1` (allowed by the encoder's `[GS]?\d+\.\d+[a-z]?` pattern)
encodes fine, but `from_filename` fails wholesale — the decoded `version`
violates the pydantic constraint `^\d+\.\d+[a-z]?$`, so *no* field is
recovered. -/
theorem from_filename_roundtrip_gs_counterexample :
    validDocumentB c1_document_gs = true ∧
      c1_document_gs.get_meaningful_file_name =
        some "EBD_S1.1_20240401_99991231_20240401_oooo_123.pdf".toList ∧
      DocumentMetadata.from_filename
        "EBD_S1.1_20240401_99991231_20240401_oooo_123.pdf".toList = none := by
  refine ⟨by decide, by decide, by decide⟩

end EdiEnergy
